import Mathlib

/-!
Verification of the sliding-window rate limiter.

Shallow embedding of the admission core of the `rate-limiter` repository:

* the sliding-window accountant (the Lua script in `src/unnamed/part_008`,
  whose body coincides, for a single sequential caller, with the inline
  command sequence of the middleware in `src/unnamed/part_005`);
* the multi-rule middleware loop, header construction and admit/reject
  decision of `src/unnamed/part_005`;
* the rule-set validator of `src/utils/rateLimitHelpers.ts`;
* the client-key and config-key derivations of `src/unnamed/part_005` and
  the seeding script `src/unnamed/part_007`.

Timestamps and scores are integers (milliseconds); a window log (one redis
sorted set `swl:<ruleIdx>:<clientKey>`) is a list of scores, treated as a
multiset - redis members are unique strings `now:random`, so several entries
may share a score, which the list representation captures.  Key TTL
(`EXPIRE`) only shortens the lifetime of an idle key and is not part of any
claim's observable state, so it is not modelled.
-/

namespace RateLimiter

/-- A rate-limiting rule, from `src/utils/rateLimitHelpers.ts`:
`points` requests allowed per trailing window of `duration` seconds. -/
structure RateLimitRule where
  points : Int
  duration : Int
  deriving Repr, DecidableEq

/-- The contents of one redis sorted set `swl:<ruleIdx>:<clientKey>`:
the multiset of scores (millisecond timestamps) of its members. -/
abbrev WindowLog := List Int

/-- The command `ZREMRANGEBYSCORE key lo hi` removes every member whose score lies in
the closed interval `[lo, hi]`. -/
def zremrangebyscore (log : WindowLog) (lo hi : Int) : WindowLog :=
  log.filter (fun s => !(decide (lo ≤ s ∧ s ≤ hi)))

/-- The command `ZCARD key`: the cardinality of the set. -/
def zcard (log : WindowLog) : Nat := log.length

/-- The command `ZRANGE key 0 0 WITHSCORES`: the lowest score, if the set is non-empty. -/
def zrangeOldest (log : WindowLog) : Option Int := log.min?

/-- Result of one accountant evaluation: the count observed after the
prune, the oldest retained score (or `now`), and the updated log. -/
structure EvalResult where
  count : Nat
  oldest : Int
  log : WindowLog
  deriving Repr, DecidableEq

/-- The body of the Lua script `rateLimitLuaScript` (src/unnamed/part_008):
prune `[0, windowStart]`, read the cardinality, insert at score `now` iff
`count < points`, return the count and the oldest remaining score
(`oldest[2] or now`).  For a single sequential caller this is also exactly
the per-rule command sequence of the middleware loop in part_005.  The
`EXPIRE` call touches only the key's TTL and is not modelled. -/
def slidingWindowEval (rule : RateLimitRule) (now : Int) (log : WindowLog) :
    EvalResult :=
  let windowStart := now - rule.duration * 1000
  let pruned := zremrangebyscore log 0 windowStart
  let count := zcard pruned
  let newLog := if (count : Int) < rule.points then now :: pruned else pruned
  { count := count
    oldest := (zrangeOldest newLog).getD now
    log := newLog }

/-- Whether the evaluation admitted the candidate (`count < points`). -/
def EvalResult.admitted (r : EvalResult) (rule : RateLimitRule) : Bool :=
  (r.count : Int) < rule.points

example :
    slidingWindowEval ⟨2, 10⟩ 20000 [5000, 11000] =
      { count := 1, oldest := 11000, log := [20000, 11000] } := by decide

example :
    slidingWindowEval ⟨1, 10⟩ 20000 [15000] =
      { count := 1, oldest := 15000, log := [15000] } := by decide

/-! ## Middleware (src/unnamed/part_005) -/

/-- Integer `Math.ceil(a / b)`, for `b > 0` (JS computes a real division
and takes the ceiling; on integer inputs this is `-⌊-a / b⌋`). -/
def ceilDiv (a b : Int) : Int := -(Int.ediv (-a) b)

/-- Identifier normalization of part_005 line 28:
`ctx.params?.applicationId ?? 'unknown'`.  `??` substitutes only for a
missing (`undefined`/`null`) parameter; an empty string passes through. -/
def normalizeIdSwl (applicationId : Option String) : String :=
  match applicationId with
  | none => "unknown"
  | some s => s

/-- Identifier normalization of src/middlewares/rateLimiter.ts line 44:
`ctx.params?.applicationId || 'unknown'`.  `||` also replaces the empty
string, which is falsy. -/
def normalizeIdFlex (applicationId : Option String) : String :=
  match applicationId with
  | none => "unknown"
  | some s => if s = "" then "unknown" else s

/-- The ClientKey of part_005 line 28: `${ctx.ip}:${applicationId ?? 'unknown'}`. -/
def clientKeyOf (ip : String) (applicationId : Option String) : String :=
  ip ++ ":" ++ normalizeIdSwl applicationId

/-- The function `buildRedisKey` of part_005: `swl:<ruleIdx>:<clientKey>`. -/
def buildRedisKey (ruleIdx : Nat) (clientKey : String) : String :=
  "swl:" ++ toString ruleIdx ++ ":" ++ clientKey

/-- Config key written by the seeding script (src/unnamed/part_007):
`rateLimitConfig:` followed by the lowercased application id
(`appId.toLowerCase()`; JS lowercasing is modelled per character - the
identifiers involved are ASCII). -/
def seedConfigKey (appId : String) : String :=
  "rateLimitConfig:" ++ ⟨appId.data.map Char.toLower⟩

/-- The store, restricted to the window-log keys.  `buildRedisKey` is
injective as a function of `(ruleIdx, clientKey)` (the rule index is the
colon-free digit block between the first two colons), so the sorted sets
are indexed here directly by that pair. -/
abbrev Store := Nat → String → WindowLog

/-- The empty store: every key is an empty sorted set. -/
def emptyStore : Store := fun _ _ => []

/-- The per-request aggregates of part_005 lines 29-32.  `none` models the
initial `Number.POSITIVE_INFINITY` of `strictestRemaining`. -/
structure Agg where
  blocked : Bool
  strictestIdx : Nat
  strictestRemaining : Option Int
  strictestReset : Int
  deriving Repr, DecidableEq

/-- Initial aggregates: `blocked = false, strictestRuleIdx = 0, strictestRemaining = +inf,
strictestReset = 0`. -/
def initAgg : Agg := ⟨false, 0, none, 0⟩

/-- Comparison `x < strictestRemaining`, where `strictestRemaining` may be `+inf`. -/
def remLt (x : Int) : Option Int → Bool
  | none => true
  | some y => x < y

/-- One iteration of the rule loop of part_005 (lines 34-65) for the rule
at index `i`, acting on that rule's window log: prune, read the count,
then either record the rejection (updating `strictestReset`/`strictestIdx`
when this rule's `resetSec` is strictly larger, and setting
`strictestRemaining = 0`) or insert the candidate and update the strictest
aggregates when this rule's remaining quota is strictly smaller. -/
def stepRule (now : Int) (i : Nat) (rule : RateLimitRule) (agg : Agg)
    (log : WindowLog) : Agg × WindowLog :=
  let windowStart := now - rule.duration * 1000
  let pruned := zremrangebyscore log 0 windowStart
  let count := zcard pruned
  if (count : Int) ≥ rule.points then
    let agg1 :=
      match zrangeOldest pruned with
      | some oldestTs =>
          let reset := ceilDiv (oldestTs + rule.duration * 1000 - now) 1000
          if reset > agg.strictestReset then
            { agg with blocked := true, strictestReset := reset, strictestIdx := i }
          else { agg with blocked := true }
      | none => { agg with blocked := true }
    ({ agg1 with strictestRemaining := some 0 }, pruned)
  else
    let remaining := rule.points - (count : Int) - 1
    if remLt remaining agg.strictestRemaining then
      ({ agg with strictestRemaining := some remaining, strictestIdx := i,
                  strictestReset := rule.duration }, now :: pruned)
    else (agg, now :: pruned)

/-- The rule loop of part_005, processing the rules from index `i` on.
Each iteration touches only the key `(i, clientKey)` of the store. -/
def runRulesFrom (now : Int) (ck : String) :
    List RateLimitRule → Nat → Agg → Store → Agg × Store
  | [], _, agg, store => (agg, store)
  | rule :: rest, i, agg, store =>
      let (agg', newLog) := stepRule now i rule agg (store i ck)
      runRulesFrom now ck rest (i + 1) agg'
        (fun j k => if j = i ∧ k = ck then newLog else store j k)

/-- The function `buildRateLimitHeaders` of part_005 lines 9-21.  The function reads
`Date.now()` again for the reset timestamp; the reading is passed in as
`nowH`.  `Math.max(+inf, 0)` prints as `"Infinity"`. -/
def buildRateLimitHeaders (nowH limit : Int) (remaining : Option Int)
    (resetSec : Int) : List (String × String) :=
  [("X-RateLimit-Limit", toString limit),
   ("X-RateLimit-Remaining",
     match remaining with
     | none => "Infinity"
     | some r => toString (max r 0)),
   ("X-RateLimit-Reset", toString (nowH + resetSec * 1000)),
   ("Retry-After", toString resetSec)]

/-- The observable outcome of one request through the middleware.  On
admission the downstream handler determines status and body; the model
records `status = 200`, an empty body and `nextCalled = true`. -/
structure Response where
  status : Nat
  body : String
  headers : List (String × String)
  nextCalled : Bool
  deriving Repr, DecidableEq

/-- One full request through the middleware of part_005 (lines 26-81):
derive the client key, run the rule loop, set the four headers from the
strictest aggregates (`X-RateLimit-Limit` is `rules[strictestRuleIdx].points`),
then finalize with 429/`"Too Many Requests"` when blocked, otherwise
invoke the continuation. -/
def rateLimiterRun (rules : List RateLimitRule) (ip : String)
    (applicationId : Option String) (store : Store) (now : Int) :
    Response × Store :=
  let ck := clientKeyOf ip applicationId
  let (agg, store') := runRulesFrom now ck rules 0 initAgg store
  let headers := buildRateLimitHeaders now
    (rules.getD agg.strictestIdx ⟨0, 0⟩).points
    agg.strictestRemaining agg.strictestReset
  if agg.blocked then
    ({ status := 429, body := "Too Many Requests", headers := headers,
       nextCalled := false }, store')
  else
    ({ status := 200, body := "", headers := headers,
       nextCalled := true }, store')

example :
    (rateLimiterRun [⟨1, 10⟩] "1.2.3.4" (some "a") emptyStore 50000).1.nextCalled
      = true := by decide

example :
    ((rateLimiterRun [⟨1, 10⟩] "1.2.3.4" (some "a")
        (fun _ _ => [49000]) 50000).1).status = 429 := by decide

/-! ## Basic lemmas about the store commands -/

/-- Membership in the pruned log. -/
theorem mem_zremrangebyscore {log : WindowLog} {lo hi s : Int} :
    s ∈ zremrangebyscore log lo hi ↔ s ∈ log ∧ ¬(lo ≤ s ∧ s ≤ hi) := by
  constructor
  · intro h
    rw [zremrangebyscore, List.mem_filter] at h
    refine ⟨h.1, ?_⟩
    have h2 := h.2
    simp at h2
    omega
  · intro h
    rw [zremrangebyscore, List.mem_filter]
    refine ⟨h.1, ?_⟩
    have h2 := h.2
    simp
    omega

/-- Multiplicity after `ZREMRANGEBYSCORE`: scores inside `[lo, hi]` are
gone, all other multiplicities are untouched. -/
theorem zremrangebyscore_count (log : WindowLog) (lo hi s : Int) :
    (zremrangebyscore log lo hi).count s =
      if lo ≤ s ∧ s ≤ hi then 0 else log.count s := by
  by_cases hs : lo ≤ s ∧ s ≤ hi
  · rw [if_pos hs]
    refine List.count_eq_zero.mpr ?_
    intro hmem
    exact (mem_zremrangebyscore.mp hmem).2 hs
  · rw [if_neg hs]
    exact List.count_filter (by simp; omega)

/-! ## C3: functional correctness of one accountant evaluation -/

/-- C3: one `evaluate` on a `(ruleIndex, clientKey)` pair removes exactly
the entries with score in the closed interval `[0, now - duration*1000]`
(entries at the window start included), returns the cardinality after the
prune and before any insertion, inserts a new entry at score `now` iff
`count < points`, and on rejection leaves the log unchanged apart from the
prune. -/
theorem evaluate_prune_count_insert (rule : RateLimitRule) (now : Int)
    (log : WindowLog) :
    (∀ s : Int,
        (zremrangebyscore log 0 (now - rule.duration * 1000)).count s =
          if 0 ≤ s ∧ s ≤ now - rule.duration * 1000 then 0 else log.count s)
    ∧ (slidingWindowEval rule now log).count =
        (zremrangebyscore log 0 (now - rule.duration * 1000)).length
    ∧ (slidingWindowEval rule now log).log =
        (if ((slidingWindowEval rule now log).count : Int) < rule.points
         then now :: zremrangebyscore log 0 (now - rule.duration * 1000)
         else zremrangebyscore log 0 (now - rule.duration * 1000)) := by
  refine ⟨fun s => zremrangebyscore_count log 0 (now - rule.duration * 1000) s, rfl, ?_⟩
  simp only [slidingWindowEval, zcard]

/-! ## Sequential traces of accountant calls (for one rule and client key) -/

/-- The survival predicate of the prune at window start `ws`: kept iff the
score is outside `[0, ws]`. -/
def survives (ws : Int) (s : Int) : Bool := !(decide (0 ≤ s ∧ s ≤ ws))

theorem zremrangebyscore_eq_filter (log : WindowLog) (ws : Int) :
    zremrangebyscore log 0 ws = log.filter (survives ws) := rfl

/-- Whether a score falls in the trailing window `(T - d*1000, T]` of
duration `d` seconds ending at `T`. -/
def inWin (d : Int) (T : Int) (s : Int) : Bool := decide (T - d * 1000 < s ∧ s ≤ T)

/-- A sequence of sequential accountant calls on one window log (one
`(ruleIndex, clientKey)` pair), each call being `slidingWindowEval`;
accumulates the log and the (reversed) list of admitted call times. -/
def runCallsAdm (rule : RateLimitRule) :
    List Int → WindowLog → List Int → WindowLog × List Int
  | [], log, adm => (log, adm)
  | t :: ts, log, adm =>
      let r := slidingWindowEval rule t log
      runCallsAdm rule ts r.log (if r.admitted rule then t :: adm else adm)

theorem runCallsAdm_cons (rule : RateLimitRule) (t : Int) (ts : List Int)
    (log adm : List Int) :
    runCallsAdm rule (t :: ts) log adm =
      if ((zremrangebyscore log 0 (t - rule.duration * 1000)).length : Int)
          < rule.points
      then runCallsAdm rule ts
        (t :: zremrangebyscore log 0 (t - rule.duration * 1000)) (t :: adm)
      else runCallsAdm rule ts
        (zremrangebyscore log 0 (t - rule.duration * 1000)) adm := by
  by_cases h : ((zremrangebyscore log 0 (t - rule.duration * 1000)).length : Int)
      < rule.points
  · simp [runCallsAdm, slidingWindowEval, EvalResult.admitted, zcard, h]
  · simp [runCallsAdm, slidingWindowEval, EvalResult.admitted, zcard, h]

/-- Pruning with a later window start after pruning with an earlier one is
the same as pruning with the later one alone. -/
theorem filter_survives_filter_survives {ws1 ws2 : Int} (h : ws1 ≤ ws2)
    (l : List Int) :
    (l.filter (survives ws1)).filter (survives ws2) = l.filter (survives ws2) := by
  rw [List.filter_filter]
  refine List.filter_congr ?_
  intro x _
  by_cases h2 : survives ws2 x = true
  · have h1 : survives ws1 x = true := by
      simp only [survives] at h2 ⊢
      simp at h2 ⊢
      omega
    rw [h1, h2, Bool.and_true]
  · have h2' : survives ws2 x = false := by
      simpa using h2
    rw [h2', Bool.false_and]

/-- Filtering with a pointwise-stronger predicate keeps at most as many
elements. -/
theorem length_filter_le_of_imp {α : Type} {p q : α → Bool} :
    ∀ (l : List α), (∀ a ∈ l, p a = true → q a = true) →
      (l.filter p).length ≤ (l.filter q).length
  | [], _ => le_refl _
  | a :: l, h => by
      have ih := length_filter_le_of_imp l
        (fun x hx => h x (List.mem_cons_of_mem a hx))
      by_cases hp : p a = true
      · have hq := h a (List.mem_cons_self a l) hp
        simp only [List.filter_cons, hp, if_true, hq, List.length_cons]
        omega
      · have hp' : p a = false := by simpa using hp
        simp only [List.filter_cons, hp', Bool.false_eq_true, if_false]
        cases hq : q a
        · simp only [Bool.false_eq_true, if_false]
          exact ih
        · simp only [if_true, List.length_cons]
          omega

/-- On a score known to be in `[0, T]`, surviving the prune at
`T - d*1000` is the same as lying in the trailing window ending at `T`. -/
theorem survives_eq_inWin {d T s : Int} (h0 : 0 ≤ s) (hT : s ≤ T) :
    survives (T - d * 1000) s = inWin d T s := by
  simp only [survives, inWin]
  have : (¬(0 ≤ s ∧ s ≤ T - d * 1000)) ↔ (T - d * 1000 < s ∧ s ≤ T) := by omega
  rw [← decide_not, decide_eq_decide]
  exact this

theorem getLastD_cons (t t0 : Int) (ts : List Int) :
    ((t :: ts).getLast?).getD t0 = (ts.getLast?).getD t := by
  cases ts with
  | nil => rfl
  | cons a l =>
      rw [List.getLast?_cons_cons]
      cases h : (a :: l).getLast? with
      | none =>
          exact absurd (List.getLast?_eq_none_iff.mp h) (List.cons_ne_nil a l)
      | some b => rfl

/-- A fresh call time always survives its own prune (the window has
positive length). -/
theorem survives_self {t d : Int} (hd : 0 < d) :
    survives (t - d * 1000) t = true := by
  simp only [survives]
  simp
  omega

/-- Master invariant of a sequential trace of accountant calls: if the log
is exactly the not-yet-expired admissions and the per-window admission
count is bounded by `points`, both facts persist through any further
non-decreasing, non-negative call times, and all admitted times stay
between `0` and the latest call time. -/
theorem runCallsAdm_inv (rule : RateLimitRule) (hd : 0 < rule.duration) :
    ∀ (ts : List Int) (log adm : List Int) (t0 : Int),
      List.Chain' (· ≤ ·) (t0 :: ts) →
      (∀ t ∈ ts, (0:Int) ≤ t) →
      (∀ s ∈ adm, 0 ≤ s ∧ s ≤ t0) →
      log = adm.filter (survives (t0 - rule.duration * 1000)) →
      (∀ T : Int,
        ((adm.filter (inWin rule.duration T)).length : Int) ≤ rule.points) →
      (∀ s ∈ (runCallsAdm rule ts log adm).2,
          0 ≤ s ∧ s ≤ (ts.getLast?).getD t0) ∧
      (runCallsAdm rule ts log adm).1 =
        (runCallsAdm rule ts log adm).2.filter
          (survives ((ts.getLast?).getD t0 - rule.duration * 1000)) ∧
      (∀ T : Int,
        (((runCallsAdm rule ts log adm).2.filter
            (inWin rule.duration T)).length : Int) ≤ rule.points) := by
  intro ts
  induction ts with
  | nil =>
      intro log adm t0 _ _ hadm hlog hwin
      exact ⟨by simpa using hadm, by simpa using hlog, hwin⟩
  | cons t ts ih =>
      intro log adm t0 hchain hpos hadm hlog hwin
      obtain ⟨h01, hchain'⟩ := List.chain'_cons.mp hchain
      have ht0 : (0:Int) ≤ t := hpos t (List.mem_cons_self t ts)
      have hws : t0 - rule.duration * 1000 ≤ t - rule.duration * 1000 := by omega
      have hpruned :
          zremrangebyscore log 0 (t - rule.duration * 1000) =
            adm.filter (survives (t - rule.duration * 1000)) := by
        rw [zremrangebyscore_eq_filter, hlog,
          filter_survives_filter_survives hws]
      rw [runCallsAdm_cons, getLastD_cons]
      by_cases hcnt :
          ((zremrangebyscore log 0 (t - rule.duration * 1000)).length : Int)
            < rule.points
      · rw [if_pos hcnt]
        refine ih _ (t :: adm) t hchain' (fun x hx => hpos x (List.mem_cons_of_mem t hx)) ?_ ?_ ?_
        · intro s hs
          rcases List.mem_cons.mp hs with h | h
          · exact ⟨h ▸ ht0, h ▸ le_refl t⟩
          · exact ⟨(hadm s h).1, le_trans (hadm s h).2 h01⟩
        · rw [hpruned, List.filter_cons, survives_self hd]
          simp
        · intro T
          by_cases hTt : t ≤ T
          · have himp : ∀ s ∈ adm, inWin rule.duration T s = true →
                survives (t - rule.duration * 1000) s = true := by
              intro s _ hw
              simp only [inWin, decide_eq_true_eq] at hw
              simp only [survives]
              simp
              omega
            have h1 := length_filter_le_of_imp adm himp
            rw [hpruned] at hcnt
            have h2 :
                ((adm.filter (survives (t - rule.duration * 1000))).length : Int)
                  < rule.points := hcnt
            cases hw : inWin rule.duration T t
            · rw [List.filter_cons, hw]
              simp only [Bool.false_eq_true, if_false]
              omega
            · rw [List.filter_cons, hw]
              simp only [if_true, List.length_cons]
              push_cast
              push_cast at h2
              omega
          · have hwf : inWin rule.duration T t = false := by
              simp only [inWin]
              simp
              omega
            rw [List.filter_cons, hwf]
            simp only [Bool.false_eq_true, if_false]
            exact hwin T
      · rw [if_neg hcnt]
        refine ih _ adm t hchain' (fun x hx => hpos x (List.mem_cons_of_mem t hx)) ?_ hpruned hwin
        intro s hs
        exact ⟨(hadm s hs).1, le_trans (hadm s hs).2 h01⟩

/-- C2: for every rule with positive `points` and `duration` and every
sequence of sequential accountant calls at non-decreasing, non-negative
times on a fresh window log: after every call every retained score is at
least `now - duration*1000` and the log's cardinality is at most `points`
(in particular immediately after an admission); and the number of
admissions within any trailing window of `duration` seconds never exceeds
`points`. -/
theorem sliding_window_invariants (rule : RateLimitRule)
    (hp : 0 < rule.points) (hd : 0 < rule.duration)
    (ts : List Int) (hchain : List.Chain' (· ≤ ·) ts)
    (hpos : ∀ t ∈ ts, (0:Int) ≤ t) :
    (∀ pre t post, ts = pre ++ t :: post →
      (∀ s ∈ (runCallsAdm rule (pre ++ [t]) [] []).1,
          t - rule.duration * 1000 ≤ s) ∧
      (((runCallsAdm rule (pre ++ [t]) [] []).1.length : Int) ≤ rule.points)) ∧
    (∀ T : Int,
      (((runCallsAdm rule ts [] []).2.filter
          (inWin rule.duration T)).length : Int) ≤ rule.points) := by
  have chain0 : ∀ (l : List Int), List.Chain' (· ≤ ·) l →
      (∀ t ∈ l, (0:Int) ≤ t) → List.Chain' (· ≤ ·) ((0:Int) :: l) := by
    intro l hl h0
    refine List.chain'_cons'.mpr ⟨?_, hl⟩
    intro y hy
    exact h0 y (List.mem_of_mem_head? hy)
  have hwin0 : ∀ T : Int,
      ((([] : List Int).filter (inWin rule.duration T)).length : Int)
        ≤ rule.points := by
    intro T
    simp
    omega
  constructor
  · intro pre t post hsplit
    have hfact : ts = (pre ++ [t]) ++ post := by
      rw [hsplit]
      simp
    have hchain' : List.Chain' (· ≤ ·) (pre ++ [t]) :=
      List.Chain'.left_of_append (hfact ▸ hchain)
    have hmem : ∀ x ∈ pre ++ [t], x ∈ ts := by
      intro x hx
      rw [hfact]
      exact List.mem_append_left post hx
    have hpos' : ∀ x ∈ pre ++ [t], (0:Int) ≤ x :=
      fun x hx => hpos x (hmem x hx)
    have inv := runCallsAdm_inv rule hd (pre ++ [t]) [] [] 0
      (chain0 _ hchain' hpos') hpos' (by simp) (by simp) hwin0
    rw [List.getLast?_concat] at inv
    simp only [Option.getD_some] at inv
    obtain ⟨hbounds, hshape, hwins⟩ := inv
    constructor
    · intro s hs
      rw [hshape] at hs
      have hmemadm := List.mem_of_mem_filter hs
      have hsurv := List.of_mem_filter hs
      simp only [survives] at hsurv
      simp at hsurv
      have h0s := (hbounds s hmemadm).1
      omega
    · have hsame :
          (runCallsAdm rule (pre ++ [t]) [] []).2.filter
              (survives (t - rule.duration * 1000)) =
            (runCallsAdm rule (pre ++ [t]) [] []).2.filter
              (inWin rule.duration t) := by
        refine List.filter_congr ?_
        intro s hs
        exact survives_eq_inWin (hbounds s hs).1 (hbounds s hs).2
      rw [hshape, hsame]
      exact hwins t
  · exact (runCallsAdm_inv rule hd ts [] [] 0
      (chain0 _ hchain hpos) hpos (by simp) (by simp) hwin0).2.2

/-- Witness for `sliding_window_invariants`: the rule "2 requests per 10
seconds" on call times 0 ms, 5000 ms, 9000 ms, 12000 ms: after the third
call (prefix `[0, 5000] ++ [9000]`) the log holds recent scores only and
at most 2 of them, and no trailing 10-second window ever contains more
than 2 admissions. -/
theorem sliding_window_invariants_witness :
    (∀ s ∈ (runCallsAdm ⟨2, 10⟩ ([0, 5000] ++ [9000]) [] []).1,
        9000 - (10:Int) * 1000 ≤ s) ∧
    (((runCallsAdm ⟨2, 10⟩ ([0, 5000] ++ [9000]) [] []).1.length : Int) ≤ 2) ∧
    (((runCallsAdm ⟨2, 10⟩ [0, 5000, 9000, 12000] [] []).2.filter
        (inWin 10 12000)).length : Int) ≤ 2 := by
  have h := sliding_window_invariants ⟨2, 10⟩ (by decide) (by decide)
    [0, 5000, 9000, 12000]
    (by norm_num [List.chain'_cons, List.chain'_singleton]) (by decide)
  have h1 := h.1 [0, 5000] 9000 [12000] (by decide)
  exact ⟨h1.1, h1.2, h.2 12000⟩

/-! ## Effect of the rule loop on the store -/

/-- The rule at index `m` (the loop of part_005 only reads `rules[i]` for
`i < rules.length`, so the default is never observed). -/
def ruleAt (rules : List RateLimitRule) (m : Nat) : RateLimitRule :=
  rules.getD m ⟨0, 0⟩

/-- The window log of rule `j` for client `ck` after the prune of a request
at `now`: what `ZCARD` is measured on. -/
def prunedLogAt (rules : List RateLimitRule) (store : Store) (ck : String)
    (now : Int) (j : Nat) : WindowLog :=
  zremrangebyscore (store j ck) 0 (now - (ruleAt rules j).duration * 1000)

/-- The pre-admission count rule `j` observes during a request at `now`
(each loop iteration touches only its own key, so the count is determined
by the store at the start of the request). -/
def obsCount (rules : List RateLimitRule) (store : Store) (ck : String)
    (now : Int) (j : Nat) : Int :=
  ((prunedLogAt rules store ck now j).length : Int)

theorem stepRule_log (now : Int) (i : Nat) (rule : RateLimitRule) (agg : Agg)
    (log : WindowLog) :
    (stepRule now i rule agg log).2 = (slidingWindowEval rule now log).log := by
  by_cases h : ((zremrangebyscore log 0 (now - rule.duration * 1000)).length : Int)
      ≥ rule.points
  · have h' : ¬ ((zremrangebyscore log 0 (now - rule.duration * 1000)).length : Int)
        < rule.points := by omega
    simp only [stepRule, slidingWindowEval, zcard, h, h', if_true, if_false]
  · have h' : ((zremrangebyscore log 0 (now - rule.duration * 1000)).length : Int)
        < rule.points := by omega
    simp only [stepRule, slidingWindowEval, zcard, h, h', if_true, if_false]
    split <;> rfl

/-- Keys of other clients, and rule indices below the loop counter, are
never written by the rule loop. -/
theorem runRulesFrom_store_other (now : Int) (ck : String) :
    ∀ (rules : List RateLimitRule) (i : Nat) (agg : Agg) (store : Store)
      (j : Nat) (k : String), (k ≠ ck ∨ j < i) →
      (runRulesFrom now ck rules i agg store).2 j k = store j k := by
  intro rules
  induction rules with
  | nil => intro i agg store j k _; rfl
  | cons rule rest ih =>
      intro i agg store j k hk
      have hk' : k ≠ ck ∨ j < i + 1 := by
        rcases hk with h | h
        · exact Or.inl h
        · exact Or.inr (by omega)
      have hcf : ¬(j = i ∧ k = ck) := by
        rcases hk with h | h
        · exact fun hc => h hc.2
        · exact fun hc => absurd hc.1 (by omega)
      simp only [runRulesFrom]
      rw [ih _ _ _ j k hk']
      rw [if_neg hcf]

/-- The store after the rule loop: for the request's client key, the rule
at offset `m` leaves its window log in exactly the state produced by one
`slidingWindowEval` on the log the request found (each iteration touches
only its own key, so the iterations do not interfere). -/
theorem runRulesFrom_store_inRange (now : Int) (ck : String) :
    ∀ (rules : List RateLimitRule) (i : Nat) (agg : Agg) (store : Store)
      (m : Nat), m < rules.length →
      (runRulesFrom now ck rules i agg store).2 (i + m) ck =
        (slidingWindowEval (rules.getD m ⟨0, 0⟩) now (store (i + m) ck)).log := by
  intro rules
  induction rules with
  | nil => intro i agg store m hm; exact absurd hm (by simp)
  | cons rule rest ih =>
      intro i agg store m hm
      simp only [runRulesFrom]
      cases m with
      | zero =>
          rw [runRulesFrom_store_other now ck rest (i+1) _ _ (i+0) ck
            (Or.inr (by omega))]
          simp only [Nat.add_zero, List.getD_cons_zero, and_self, if_true]
          exact stepRule_log now i rule agg (store i ck)
      | succ m' =>
          have hm' : m' < rest.length := by simpa using hm
          have heq := ih (i+1) ((stepRule now i rule agg (store i ck)).1)
            (fun j k => if j = i ∧ k = ck
                        then (stepRule now i rule agg (store i ck)).2
                        else store j k) m' hm'
          rw [show i + (m' + 1) = (i + 1) + m' by omega]
          rw [heq]
          simp only [List.getD_cons_succ]
          rw [if_neg (fun hc => absurd hc.1 (by omega))]

/-! ## The strictest-rule aggregation, via per-rule observations -/

/-- What one loop iteration observes about its rule: whether the rule
rejects, the post-admission remaining quota, the rejection `resetSec`
(meaningful when the pruned log is non-empty), and the rule's duration. -/
structure RuleEvent where
  reject : Bool
  remaining : Int
  resetSec : Int
  hasOldest : Bool
  duration : Int
  deriving Repr, DecidableEq

/-- Placeholder event used as a `getD` default. -/
def noEvent : RuleEvent := ⟨false, 0, 0, false, 0⟩

/-- The observation of one rule on one window log at time `now`. -/
def eventOf (rule : RateLimitRule) (now : Int) (log : WindowLog) : RuleEvent :=
  let pruned := zremrangebyscore log 0 (now - rule.duration * 1000)
  { reject := decide (((pruned.length : Int)) ≥ rule.points)
    remaining := rule.points - (pruned.length : Int) - 1
    resetSec :=
      match zrangeOldest pruned with
      | some o => ceilDiv (o + rule.duration * 1000 - now) 1000
      | none => 0
    hasOldest := (zrangeOldest pruned).isSome
    duration := rule.duration }

/-- The effect of one loop iteration on the aggregates, as a function of
its observation. -/
def stepAgg (i : Nat) (e : RuleEvent) (agg : Agg) : Agg :=
  if e.reject then
    let agg1 :=
      if e.hasOldest = true ∧ e.resetSec > agg.strictestReset then
        { agg with blocked := true, strictestReset := e.resetSec,
                   strictestIdx := i }
      else { agg with blocked := true }
    { agg1 with strictestRemaining := some 0 }
  else if remLt e.remaining agg.strictestRemaining then
    { agg with strictestRemaining := some e.remaining, strictestIdx := i,
               strictestReset := e.duration }
  else agg

/-- The aggregation of a list of observations, starting at index `i`. -/
def foldAgg : List RuleEvent → Nat → Agg → Agg
  | [], _, agg => agg
  | e :: es, i, agg => foldAgg es (i + 1) (stepAgg i e agg)

/-- The observations a request at `now` makes of the rules from index `i`
on (each iteration only reads its own key, so all observations can be
taken on the store as the request found it). -/
def eventsOf (now : Int) (ck : String) :
    List RateLimitRule → Nat → Store → List RuleEvent
  | [], _, _ => []
  | rule :: rest, i, store =>
      eventOf rule now (store i ck) :: eventsOf now ck rest (i + 1) store

theorem stepRule_agg (now : Int) (i : Nat) (rule : RateLimitRule) (agg : Agg)
    (log : WindowLog) :
    (stepRule now i rule agg log).1 = stepAgg i (eventOf rule now log) agg := by
  by_cases h : ((zremrangebyscore log 0 (now - rule.duration * 1000)).length : Int)
      ≥ rule.points
  · simp only [stepRule, stepAgg, eventOf, zcard, h, if_true, decide_eq_true_eq]
    cases hzo : zrangeOldest (zremrangebyscore log 0 (now - rule.duration * 1000)) with
    | none => simp [hzo]
    | some o =>
        simp only [hzo, Option.isSome_some]
        by_cases hgt : ceilDiv (o + rule.duration * 1000 - now) 1000
            > agg.strictestReset
        · rw [if_pos hgt, if_pos ⟨trivial, hgt⟩]
        · rw [if_neg hgt, if_neg (fun hc => hgt hc.2)]
  · have h' : (decide (((zremrangebyscore log 0
        (now - rule.duration * 1000)).length : Int) ≥ rule.points)) = false := by
      simpa using h
    simp only [stepRule, stepAgg, eventOf, zcard, h, h', if_false, if_true,
      Bool.false_eq_true]
    split <;> rfl

theorem eventsOf_congr (now : Int) (ck : String) :
    ∀ (rules : List RateLimitRule) (i : Nat) (store1 store2 : Store),
      (∀ m, m < rules.length → store1 (i + m) ck = store2 (i + m) ck) →
      eventsOf now ck rules i store1 = eventsOf now ck rules i store2 := by
  intro rules
  induction rules with
  | nil => intro i s1 s2 _; rfl
  | cons rule rest ih =>
      intro i s1 s2 hmatch
      simp only [eventsOf]
      have h0 : s1 i ck = s2 i ck := by
        have := hmatch 0 (by simp)
        simpa using this
      have hrest : eventsOf now ck rest (i + 1) s1 =
          eventsOf now ck rest (i + 1) s2 := by
        refine ih (i + 1) s1 s2 ?_
        intro m hm
        rw [show i + 1 + m = i + (m + 1) by omega]
        exact hmatch (m + 1) (by simpa using Nat.succ_lt_succ hm)
      rw [h0, hrest]

/-- The aggregates computed by the rule loop are the fold of the per-rule
observations taken on the store as the request found it. -/
theorem runRulesFrom_agg (now : Int) (ck : String) :
    ∀ (rules : List RateLimitRule) (i : Nat) (agg : Agg) (store : Store),
      (runRulesFrom now ck rules i agg store).1 =
        foldAgg (eventsOf now ck rules i store) i agg := by
  intro rules
  induction rules with
  | nil => intro i agg store; rfl
  | cons rule rest ih =>
      intro i agg store
      simp only [runRulesFrom, eventsOf, foldAgg]
      rw [ih]
      rw [stepRule_agg]
      refine congrArg (fun es => foldAgg es (i + 1)
        (stepAgg i (eventOf rule now (store i ck)) agg)) ?_
      refine eventsOf_congr now ck rest (i + 1) _ store ?_
      intro m _
      exact if_neg (fun hc => absurd hc.1 (by omega))

theorem eventsOf_length (now : Int) (ck : String) :
    ∀ (rules : List RateLimitRule) (i : Nat) (store : Store),
      (eventsOf now ck rules i store).length = rules.length := by
  intro rules
  induction rules with
  | nil => intro i store; rfl
  | cons rule rest ih =>
      intro i store
      simp only [eventsOf, List.length_cons, ih]

theorem eventsOf_getD (now : Int) (ck : String) :
    ∀ (rules : List RateLimitRule) (i : Nat) (store : Store) (m : Nat),
      m < rules.length →
      (eventsOf now ck rules i store).getD m noEvent =
        eventOf (rules.getD m ⟨0, 0⟩) now (store (i + m) ck) := by
  intro rules
  induction rules with
  | nil => intro i store m hm; exact absurd hm (by simp)
  | cons rule rest ih =>
      intro i store m hm
      cases m with
      | zero => simp [eventsOf]
      | succ m' =>
          simp only [eventsOf, List.getD_cons_succ, List.getD_cons_succ]
          rw [ih (i + 1) store m' (by simpa using hm)]
          rw [show i + 1 + m' = i + (m' + 1) by omega]

/-- The flag `blocked` is set iff some processed rule rejected. -/
theorem foldAgg_blocked :
    ∀ (es : List RuleEvent) (i : Nat) (agg : Agg),
      (foldAgg es i agg).blocked = (agg.blocked || es.any (fun e => e.reject)) := by
  intro es
  induction es with
  | nil => intro i agg; simp [foldAgg]
  | cons e es ih =>
      intro i agg
      simp only [foldAgg, List.any_cons]
      rw [ih]
      have hstep : (stepAgg i e agg).blocked = (agg.blocked || e.reject) := by
        simp only [stepAgg]
        by_cases hr : e.reject = true
        · by_cases ho : e.hasOldest = true ∧ e.resetSec > agg.strictestReset
          · simp [hr, ho]
          · simp [hr, ho]
        · have hr' : e.reject = false := by simpa using hr
          simp only [hr', Bool.false_eq_true, if_false, Bool.or_false]
          split <;> rfl
      rw [hstep, Bool.or_assoc]

/-- After at least one iteration `strictestRemaining` is finite. -/
theorem stepAgg_remaining_isSome (i : Nat) (e : RuleEvent) (agg : Agg) :
    ((stepAgg i e agg).strictestRemaining).isSome = true := by
  simp only [stepAgg]
  by_cases hr : e.reject = true
  · by_cases ho : e.hasOldest = true ∧ e.resetSec > agg.strictestReset
    · simp [hr, ho]
    · simp [hr, ho]
  · have hr' : e.reject = false := by simpa using hr
    simp only [hr', Bool.false_eq_true, if_false]
    by_cases hlt : remLt e.remaining agg.strictestRemaining = true
    · simp [hlt]
    · rw [if_neg hlt]
      cases hrm : agg.strictestRemaining with
      | none => exact absurd (by simp [remLt, hrm]) hlt
      | some r => simp [hrm]

theorem foldAgg_remaining_isSome :
    ∀ (es : List RuleEvent) (i : Nat) (agg : Agg),
      (agg.strictestRemaining).isSome = true ∨ es ≠ [] →
      ((foldAgg es i agg).strictestRemaining).isSome = true := by
  intro es
  induction es with
  | nil =>
      intro i agg h
      rcases h with h | h
      · exact h
      · exact absurd rfl h
  | cons e es ih =>
      intro i agg _
      exact ih (i + 1) (stepAgg i e agg)
        (Or.inl (stepAgg_remaining_isSome i e agg))

theorem remLt_none (x : Int) : remLt x none = true := rfl

theorem remLt_some_iff {x y : Int} : remLt x (some y) = true ↔ x < y := by
  simp [remLt]

theorem remLt_some_false_iff {x y : Int} : remLt x (some y) = false ↔ y ≤ x := by
  simp [remLt]

/-- A strictly smaller value also beats whatever `x` beats. -/
theorem remLt_of_lt_of_remLt {z x : Int} {o : Option Int} (h1 : z < x)
    (h2 : remLt x o = true) : remLt z o = true := by
  cases o with
  | none => rfl
  | some y =>
      rw [remLt_some_iff] at h2 ⊢
      omega

/-- On a request where no processed rule rejects, the loop either leaves
the aggregates untouched (no rule beat the incoming `strictestRemaining`)
or selects the first rule achieving the minimum `remaining`, recording its
remaining quota and duration. -/
theorem foldAgg_all_admit :
    ∀ (es : List RuleEvent) (i : Nat) (agg : Agg),
      (∀ e ∈ es, e.reject = false) →
      (foldAgg es i agg = agg ∧
        ∀ m, m < es.length →
          remLt (es.getD m noEvent).remaining agg.strictestRemaining = false)
      ∨ (∃ m, m < es.length ∧
          (foldAgg es i agg).blocked = agg.blocked ∧
          (foldAgg es i agg).strictestIdx = i + m ∧
          (foldAgg es i agg).strictestRemaining =
            some (es.getD m noEvent).remaining ∧
          (foldAgg es i agg).strictestReset = (es.getD m noEvent).duration ∧
          remLt (es.getD m noEvent).remaining agg.strictestRemaining = true ∧
          (∀ m', m' < es.length →
            (es.getD m noEvent).remaining ≤ (es.getD m' noEvent).remaining) ∧
          (∀ m', m' < m →
            (es.getD m noEvent).remaining < (es.getD m' noEvent).remaining)) := by
  intro es
  induction es with
  | nil => intro i agg _; exact Or.inl ⟨rfl, fun m hm => absurd hm (by simp)⟩
  | cons e es ih =>
      intro i agg hadm
      have he : e.reject = false := hadm e (List.mem_cons_self e es)
      have hadm' : ∀ x ∈ es, x.reject = false :=
        fun x hx => hadm x (List.mem_cons_of_mem e hx)
      have hfold : foldAgg (e :: es) i agg =
          foldAgg es (i + 1) (stepAgg i e agg) := rfl
      by_cases hlt : remLt e.remaining agg.strictestRemaining = true
      · have hstep : stepAgg i e agg =
            { agg with strictestRemaining := some e.remaining,
                       strictestIdx := i, strictestReset := e.duration } := by
          simp only [stepAgg, he, Bool.false_eq_true, if_false, hlt, if_true]
        rcases ih (i + 1) (stepAgg i e agg) hadm' with ⟨hA, hArem⟩ | hB
        · refine Or.inr ⟨0, by simp, ?_, ?_, ?_, ?_, ?_, ?_, ?_⟩
          · rw [hfold, hA, hstep]
          · rw [hfold, hA, hstep]
            simp
          · rw [hfold, hA, hstep]
            simp
          · rw [hfold, hA, hstep]
            simp
          · simpa using hlt
          · intro m' hm'
            cases m' with
            | zero => simp
            | succ k =>
                have hk : k < es.length := by simpa using hm'
                have := hArem k hk
                rw [hstep] at this
                simp only [List.getD_cons_succ, List.getD_cons_zero]
                rw [remLt_some_false_iff] at this
                exact this
          · intro m' hm'
            exact absurd hm' (by omega)
        · obtain ⟨m, hm, hblocked, hidx, hrem, hreset, hbeat, hmin, hstrict⟩ := hB
          have hbeatv : (es.getD m noEvent).remaining < e.remaining := by
            rw [hstep] at hbeat
            exact remLt_some_iff.mp hbeat
          refine Or.inr ⟨m + 1, by simpa using Nat.succ_lt_succ hm,
            ?_, ?_, ?_, ?_, ?_, ?_, ?_⟩
          · rw [hfold, hblocked, hstep]
          · rw [hfold, hidx]
            omega
          · rw [hfold, hrem]
            simp
          · rw [hfold, hreset]
            simp
          · simp only [List.getD_cons_succ]
            exact remLt_of_lt_of_remLt hbeatv hlt
          · intro m' hm'
            cases m' with
            | zero =>
                simp only [List.getD_cons_succ, List.getD_cons_zero]
                omega
            | succ k =>
                have hk : k < es.length := by simpa using hm'
                simp only [List.getD_cons_succ]
                exact hmin k hk
          · intro m' hm'
            cases m' with
            | zero =>
                simp only [List.getD_cons_succ, List.getD_cons_zero]
                exact hbeatv
            | succ k =>
                have hk : k < m := by omega
                simp only [List.getD_cons_succ]
                exact hstrict k hk
      · have hstep : stepAgg i e agg = agg := by
          simp only [stepAgg, he, Bool.false_eq_true, if_false]
          rw [if_neg hlt]
        rcases ih (i + 1) (stepAgg i e agg) hadm' with ⟨hA, hArem⟩ | hB
        · refine Or.inl ⟨by rw [hfold, hA, hstep], ?_⟩
          intro m hm
          cases m with
          | zero =>
              simpa using (by simpa using hlt : ¬ remLt e.remaining
                agg.strictestRemaining = true)
          | succ k =>
              have hk : k < es.length := by simpa using hm
              have := hArem k hk
              rw [hstep] at this
              simpa using this
        · obtain ⟨m, hm, hblocked, hidx, hrem, hreset, hbeat, hmin, hstrict⟩ := hB
          rw [hstep] at hblocked hidx hrem hreset hbeat
          have hy : ∃ y, agg.strictestRemaining = some y := by
            cases hrm : agg.strictestRemaining with
            | none => exact absurd (hrm ▸ remLt_none e.remaining) (hrm ▸ hlt)
            | some y => exact ⟨y, rfl⟩
          obtain ⟨y, hy⟩ := hy
          have hmy : (es.getD m noEvent).remaining < y := by
            rw [hy, remLt_some_iff] at hbeat
            exact hbeat
          have hye : y ≤ e.remaining := by
            have := hlt
            rw [hy] at this
            exact remLt_some_false_iff.mp (by simpa using this)
          refine Or.inr ⟨m + 1, by simpa using Nat.succ_lt_succ hm,
            ?_, ?_, ?_, ?_, ?_, ?_, ?_⟩
          · rw [hfold, hstep, hblocked]
          · rw [hfold, hstep, hidx]
            omega
          · rw [hfold, hstep, hrem]
            simp
          · rw [hfold, hstep, hreset]
            simp
          · simp only [List.getD_cons_succ]
            rw [hy, remLt_some_iff]
            exact hmy
          · intro m' hm'
            cases m' with
            | zero =>
                simp only [List.getD_cons_succ, List.getD_cons_zero]
                omega
            | succ k =>
                have hk : k < es.length := by simpa using hm'
                simp only [List.getD_cons_succ]
                exact hmin k hk
          · intro m' hm'
            cases m' with
            | zero =>
                simp only [List.getD_cons_succ, List.getD_cons_zero]
                omega
            | succ k =>
                have hk : k < m := by omega
                simp only [List.getD_cons_succ]
                exact hstrict k hk

/-- On a request where every processed rule rejects (each with a non-empty
pruned log), the loop either never updates the reset aggregates (no rule's
`resetSec` exceeded the incoming value) or selects the first rule
achieving the maximum `resetSec`. -/
theorem foldAgg_all_reject :
    ∀ (es : List RuleEvent) (i : Nat) (agg : Agg),
      (∀ e ∈ es, e.reject = true ∧ e.hasOldest = true) →
      ((foldAgg es i agg).strictestIdx = agg.strictestIdx ∧
        (foldAgg es i agg).strictestReset = agg.strictestReset ∧
        ∀ m, m < es.length →
          (es.getD m noEvent).resetSec ≤ agg.strictestReset)
      ∨ (∃ m, m < es.length ∧
          (foldAgg es i agg).strictestIdx = i + m ∧
          (foldAgg es i agg).strictestReset = (es.getD m noEvent).resetSec ∧
          agg.strictestReset < (es.getD m noEvent).resetSec ∧
          (∀ m', m' < es.length →
            (es.getD m' noEvent).resetSec ≤ (es.getD m noEvent).resetSec) ∧
          (∀ m', m' < m →
            (es.getD m' noEvent).resetSec < (es.getD m noEvent).resetSec)) := by
  intro es
  induction es with
  | nil => intro i agg _; exact Or.inl ⟨rfl, rfl, fun m hm => absurd hm (by simp)⟩
  | cons e es ih =>
      intro i agg hrej
      have he := hrej e (List.mem_cons_self e es)
      have hrej' : ∀ x ∈ es, x.reject = true ∧ x.hasOldest = true :=
        fun x hx => hrej x (List.mem_cons_of_mem e hx)
      have hfold : foldAgg (e :: es) i agg =
          foldAgg es (i + 1) (stepAgg i e agg) := rfl
      by_cases hgt : e.resetSec > agg.strictestReset
      · have hstep : stepAgg i e agg =
            { blocked := true, strictestIdx := i,
              strictestRemaining := some 0, strictestReset := e.resetSec } := by
          simp only [stepAgg, he.1, if_true]
          rw [if_pos ⟨he.2, hgt⟩]
        rcases ih (i + 1) (stepAgg i e agg) hrej' with ⟨hAi, hAr, hAall⟩ | hB
        · rw [hstep] at hAi hAr hAall
          refine Or.inr ⟨0, by simp, ?_, ?_, ?_, ?_, ?_⟩
          · rw [hfold, hstep, hAi]
            simp
          · rw [hfold, hstep, hAr]
            simp
          · simpa using hgt
          · intro m' hm'
            cases m' with
            | zero => simp
            | succ k =>
                have hk : k < es.length := by simpa using hm'
                simp only [List.getD_cons_succ, List.getD_cons_zero]
                exact hAall k hk
          · intro m' hm'
            exact absurd hm' (by omega)
        · obtain ⟨m, hm, hidx, hreset, hgt', hmax, hstrict⟩ := hB
          rw [hstep] at hidx hreset hgt'
          simp only at hgt'
          refine Or.inr ⟨m + 1, by simpa using Nat.succ_lt_succ hm,
            ?_, ?_, ?_, ?_, ?_⟩
          · rw [hfold, hstep, hidx]
            omega
          · rw [hfold, hstep, hreset]
            simp
          · simp only [List.getD_cons_succ]
            omega
          · intro m' hm'
            cases m' with
            | zero =>
                simp only [List.getD_cons_succ, List.getD_cons_zero]
                omega
            | succ k =>
                have hk : k < es.length := by simpa using hm'
                simp only [List.getD_cons_succ]
                exact hmax k hk
          · intro m' hm'
            cases m' with
            | zero =>
                simp only [List.getD_cons_succ, List.getD_cons_zero]
                omega
            | succ k =>
                have hk : k < m := by omega
                simp only [List.getD_cons_succ]
                exact hstrict k hk
      · have hstep : stepAgg i e agg =
            { blocked := true, strictestIdx := agg.strictestIdx,
              strictestRemaining := some 0,
              strictestReset := agg.strictestReset } := by
          simp only [stepAgg, he.1, if_true]
          rw [if_neg (fun hc => hgt hc.2)]
        rcases ih (i + 1) (stepAgg i e agg) hrej' with ⟨hAi, hAr, hAall⟩ | hB
        · rw [hstep] at hAi hAr hAall
          simp only at hAi hAr hAall
          refine Or.inl ⟨by rw [hfold, hstep, hAi], by rw [hfold, hstep, hAr], ?_⟩
          intro m hm
          cases m with
          | zero =>
              simp only [List.getD_cons_zero]
              omega
          | succ k =>
              have hk : k < es.length := by simpa using hm
              simp only [List.getD_cons_succ]
              exact hAall k hk
        · obtain ⟨m, hm, hidx, hreset, hgt', hmax, hstrict⟩ := hB
          rw [hstep] at hidx hreset hgt'
          simp only at hgt'
          refine Or.inr ⟨m + 1, by simpa using Nat.succ_lt_succ hm,
            ?_, ?_, ?_, ?_, ?_⟩
          · rw [hfold, hstep, hidx]
            omega
          · rw [hfold, hstep, hreset]
            simp
          · simp only [List.getD_cons_succ]
            omega
          · intro m' hm'
            cases m' with
            | zero =>
                simp only [List.getD_cons_succ, List.getD_cons_zero]
                omega
            | succ k =>
                have hk : k < es.length := by simpa using hm'
                simp only [List.getD_cons_succ]
                exact hmax k hk
          · intro m' hm'
            cases m' with
            | zero =>
                simp only [List.getD_cons_succ, List.getD_cons_zero]
                omega
            | succ k =>
                have hk : k < m := by omega
                simp only [List.getD_cons_succ]
                exact hstrict k hk

/-! ## Observations of one request, per rule index -/

/-- The post-admission remaining quota rule `j` computes on admission. -/
def obsRemaining (rules : List RateLimitRule) (store : Store) (ck : String)
    (now : Int) (j : Nat) : Int :=
  (ruleAt rules j).points - obsCount rules store ck now j - 1

/-- The `resetSec` rule `j` computes on rejection (`0` when the pruned log
is empty, in which case part_005 skips the update). -/
def obsReset (rules : List RateLimitRule) (store : Store) (ck : String)
    (now : Int) (j : Nat) : Int :=
  match zrangeOldest (prunedLogAt rules store ck now j) with
  | some o => ceilDiv (o + (ruleAt rules j).duration * 1000 - now) 1000
  | none => 0

theorem events_getD (rules : List RateLimitRule) (store : Store) (ck : String)
    (now : Int) (j : Nat) (hj : j < rules.length) :
    (eventsOf now ck rules 0 store).getD j noEvent =
      eventOf (ruleAt rules j) now (store j ck) := by
  rw [eventsOf_getD now ck rules 0 store j hj]
  rw [Nat.zero_add]
  rfl

theorem eventOf_remaining (rules : List RateLimitRule) (store : Store)
    (ck : String) (now : Int) (j : Nat) :
    (eventOf (ruleAt rules j) now (store j ck)).remaining =
      obsRemaining rules store ck now j := rfl

theorem eventOf_resetSec (rules : List RateLimitRule) (store : Store)
    (ck : String) (now : Int) (j : Nat) :
    (eventOf (ruleAt rules j) now (store j ck)).resetSec =
      obsReset rules store ck now j := rfl

theorem eventOf_duration (rules : List RateLimitRule) (store : Store)
    (ck : String) (now : Int) (j : Nat) :
    (eventOf (ruleAt rules j) now (store j ck)).duration =
      (ruleAt rules j).duration := rfl

theorem eventOf_reject_iff (rules : List RateLimitRule) (store : Store)
    (ck : String) (now : Int) (j : Nat) :
    (eventOf (ruleAt rules j) now (store j ck)).reject = true ↔
      (ruleAt rules j).points ≤ obsCount rules store ck now j := by
  simp only [eventOf, decide_eq_true_eq]
  exact ⟨fun h => h, fun h => h⟩

theorem eventOf_hasOldest (rules : List RateLimitRule) (store : Store)
    (ck : String) (now : Int) (j : Nat)
    (hp : 0 < (ruleAt rules j).points)
    (hrej : (ruleAt rules j).points ≤ obsCount rules store ck now j) :
    (eventOf (ruleAt rules j) now (store j ck)).hasOldest = true := by
  simp only [eventOf]
  have hne : prunedLogAt rules store ck now j ≠ [] := by
    intro hnil
    have : obsCount rules store ck now j = 0 := by
      simp [obsCount, hnil]
    omega
  cases hm : zrangeOldest (prunedLogAt rules store ck now j) with
  | none =>
      exact absurd (List.min?_eq_none_iff.mp hm) hne
  | some o =>
      have : zrangeOldest (zremrangebyscore (store j ck) 0
          (now - (ruleAt rules j).duration * 1000)) = some o := hm
      rw [this]
      rfl

/-- A rejecting rule whose stored scores are all non-negative computes a
`resetSec` of at least one second. -/
theorem obsReset_pos (rules : List RateLimitRule) (store : Store)
    (ck : String) (now : Int) (j : Nat)
    (hp : 0 < (ruleAt rules j).points)
    (hrej : (ruleAt rules j).points ≤ obsCount rules store ck now j)
    (hscores : ∀ s ∈ store j ck, (0:Int) ≤ s) :
    1 ≤ obsReset rules store ck now j := by
  have hne : prunedLogAt rules store ck now j ≠ [] := by
    intro hnil
    have : obsCount rules store ck now j = 0 := by
      simp [obsCount, hnil]
    omega
  cases hm : zrangeOldest (prunedLogAt rules store ck now j) with
  | none => exact absurd (List.min?_eq_none_iff.mp hm) hne
  | some o =>
      have hmem : o ∈ prunedLogAt rules store ck now j :=
        List.min?_mem (fun a b => min_choice a b) hm
      have hprops := mem_zremrangebyscore.mp hmem
      have h0 : (0:Int) ≤ o := hscores o hprops.1
      have hgt : now - (ruleAt rules j).duration * 1000 < o := by
        rcases not_and_or.mp hprops.2 with h | h
        · omega
        · omega
      simp only [obsReset, hm]
      have hc : ceilDiv (o + (ruleAt rules j).duration * 1000 - now) 1000 =
          -((-(o + (ruleAt rules j).duration * 1000 - now)) / 1000) := rfl
      rw [hc]
      omega

theorem any_getD {α : Type} (d : α) (p : α → Bool) :
    ∀ (l : List α), l.any p = true ↔
      ∃ m, m < l.length ∧ p (l.getD m d) = true := by
  intro l
  induction l with
  | nil => simp
  | cons a l ih =>
      simp only [List.any_cons, Bool.or_eq_true, ih]
      constructor
      · rintro (h | ⟨m, hm, hp⟩)
        · exact ⟨0, by simp, by simpa using h⟩
        · exact ⟨m + 1, by simpa using Nat.succ_lt_succ hm, by simpa using hp⟩
      · rintro ⟨m, hm, hp⟩
        cases m with
        | zero => exact Or.inl (by simpa using hp)
        | succ k => exact Or.inr ⟨k, by simpa using hm, by simpa using hp⟩

/-- A request is blocked iff some rule observes `count ≥ points`. -/
theorem rateLimiterRun_blocked_iff (rules : List RateLimitRule) (ip : String)
    (appId : Option String) (store : Store) (now : Int) :
    ((runRulesFrom now (clientKeyOf ip appId) rules 0 initAgg store).1.blocked
        = true ↔
      ∃ j, j < rules.length ∧ (ruleAt rules j).points ≤
        obsCount rules store (clientKeyOf ip appId) now j) := by
  rw [runRulesFrom_agg, foldAgg_blocked]
  simp only [initAgg, Bool.false_or]
  rw [any_getD noEvent]
  constructor
  · rintro ⟨m, hm, hp⟩
    have hm' : m < rules.length := by
      rw [eventsOf_length] at hm
      exact hm
    rw [events_getD rules store (clientKeyOf ip appId) now m hm'] at hp
    exact ⟨m, hm',
      (eventOf_reject_iff rules store (clientKeyOf ip appId) now m).mp hp⟩
  · rintro ⟨j, hj, hge⟩
    refine ⟨j, ?_, ?_⟩
    · rw [eventsOf_length]
      exact hj
    · rw [events_getD rules store (clientKeyOf ip appId) now j hj]
      exact (eventOf_reject_iff rules store (clientKeyOf ip appId) now j).mpr hge

theorem rateLimiterRun_eta (rules : List RateLimitRule) (ip : String)
    (appId : Option String) (store : Store) (now : Int) :
    rateLimiterRun rules ip appId store now =
      (if (runRulesFrom now (clientKeyOf ip appId) rules 0 initAgg store).1.blocked
       then ({ status := 429, body := "Too Many Requests",
               headers := buildRateLimitHeaders now
                 (rules.getD (runRulesFrom now (clientKeyOf ip appId) rules 0
                     initAgg store).1.strictestIdx ⟨0, 0⟩).points
                 (runRulesFrom now (clientKeyOf ip appId) rules 0
                     initAgg store).1.strictestRemaining
                 (runRulesFrom now (clientKeyOf ip appId) rules 0
                     initAgg store).1.strictestReset,
               nextCalled := false },
             (runRulesFrom now (clientKeyOf ip appId) rules 0 initAgg store).2)
       else ({ status := 200, body := "",
               headers := buildRateLimitHeaders now
                 (rules.getD (runRulesFrom now (clientKeyOf ip appId) rules 0
                     initAgg store).1.strictestIdx ⟨0, 0⟩).points
                 (runRulesFrom now (clientKeyOf ip appId) rules 0
                     initAgg store).1.strictestRemaining
                 (runRulesFrom now (clientKeyOf ip appId) rules 0
                     initAgg store).1.strictestReset,
               nextCalled := true },
             (runRulesFrom now (clientKeyOf ip appId) rules 0 initAgg store).2)) :=
  rfl

/-- The store leaving the middleware is the store leaving the rule loop. -/
theorem rateLimiterRun_store (rules : List RateLimitRule) (ip : String)
    (appId : Option String) (store : Store) (now : Int) :
    (rateLimiterRun rules ip appId store now).2 =
      (runRulesFrom now (clientKeyOf ip appId) rules 0 initAgg store).2 := by
  rw [rateLimiterRun_eta]
  by_cases hb : (runRulesFrom now (clientKeyOf ip appId) rules 0
      initAgg store).1.blocked = true
  · rw [if_pos hb]
  · rw [if_neg hb]

/-- C5: on a request whose rule evaluation completes without a store
error, exactly one of two outcomes occurs: if at least one rule observes
`count ≥ points` the response is finalized with 429 and body
"Too Many Requests" and the continuation is not invoked; otherwise the
continuation is invoked.  In both outcomes the four headers
X-RateLimit-Limit, X-RateLimit-Remaining (clamped to at least 0),
X-RateLimit-Reset and Retry-After are set.  (The store is modelled as
error-free: every command returns normally.) -/
theorem middleware_outcomes (rules : List RateLimitRule) (ip : String)
    (appId : Option String) (store : Store) (now : Int)
    (hne : rules ≠ []) :
    ((∃ j, j < rules.length ∧ (ruleAt rules j).points ≤
        obsCount rules store (clientKeyOf ip appId) now j) →
      (rateLimiterRun rules ip appId store now).1.status = 429 ∧
      (rateLimiterRun rules ip appId store now).1.body = "Too Many Requests" ∧
      (rateLimiterRun rules ip appId store now).1.nextCalled = false) ∧
    ((∀ j, j < rules.length →
        obsCount rules store (clientKeyOf ip appId) now j
          < (ruleAt rules j).points) →
      (rateLimiterRun rules ip appId store now).1.nextCalled = true) ∧
    (∃ limit resetSec rem : Int, 0 ≤ rem ∧
      (rateLimiterRun rules ip appId store now).1.headers =
        [("X-RateLimit-Limit", toString limit),
         ("X-RateLimit-Remaining", toString rem),
         ("X-RateLimit-Reset", toString (now + resetSec * 1000)),
         ("Retry-After", toString resetSec)]) := by
  refine ⟨?_, ?_, ?_⟩
  · intro hex
    have hb := (rateLimiterRun_blocked_iff rules ip appId store now).mpr hex
    rw [rateLimiterRun_eta, if_pos hb]
    exact ⟨rfl, rfl, rfl⟩
  · intro hall
    have hb : ¬ ((runRulesFrom now (clientKeyOf ip appId) rules 0
        initAgg store).1.blocked = true) := by
      rw [rateLimiterRun_blocked_iff]
      rintro ⟨j, hj, hge⟩
      exact absurd (hall j hj) (by omega)
    rw [rateLimiterRun_eta, if_neg hb]
  · have hsome : ((runRulesFrom now (clientKeyOf ip appId) rules 0
        initAgg store).1.strictestRemaining).isSome = true := by
      rw [runRulesFrom_agg]
      refine foldAgg_remaining_isSome _ 0 initAgg (Or.inr ?_)
      intro hnil
      have := eventsOf_length now (clientKeyOf ip appId) rules 0 store
      rw [hnil] at this
      exact hne (List.length_eq_zero.mp this.symm)
    obtain ⟨r, hr⟩ := Option.isSome_iff_exists.mp hsome
    refine ⟨(rules.getD (runRulesFrom now (clientKeyOf ip appId) rules 0
        initAgg store).1.strictestIdx ⟨0, 0⟩).points,
      (runRulesFrom now (clientKeyOf ip appId) rules 0
        initAgg store).1.strictestReset,
      max r 0, le_max_right r 0, ?_⟩
    by_cases hb : (runRulesFrom now (clientKeyOf ip appId) rules 0
        initAgg store).1.blocked = true
    · rw [rateLimiterRun_eta, if_pos hb]
      simp only [buildRateLimitHeaders, hr]
    · rw [rateLimiterRun_eta, if_neg hb]
      simp only [buildRateLimitHeaders, hr]

/-- Witness for `middleware_outcomes`: one rule "1 per 10 s", empty store:
the continuation runs and the four headers are emitted. -/
theorem middleware_outcomes_witness :
    ((rateLimiterRun [⟨1, 10⟩] "1.1.1.1" (some "a") emptyStore 50000).1.nextCalled
        = true) ∧
    (∃ limit resetSec rem : Int, 0 ≤ rem ∧
      (rateLimiterRun [⟨1, 10⟩] "1.1.1.1" (some "a")
          emptyStore 50000).1.headers =
        [("X-RateLimit-Limit", toString limit),
         ("X-RateLimit-Remaining", toString rem),
         ("X-RateLimit-Reset", toString (50000 + resetSec * 1000)),
         ("Retry-After", toString resetSec)]) := by
  have h := middleware_outcomes [⟨1, 10⟩] "1.1.1.1" (some "a") emptyStore 50000
    (by decide)
  exact ⟨h.2.1 (by decide), h.2.2⟩

/-- C10: a request rejected by rule `j` still evaluates every rule, and
every rule `i` whose own pre-admission count is below its points inserts
the new entry at score `now` into its window log. -/
theorem blocked_request_still_consumes (rules : List RateLimitRule)
    (ip : String) (appId : Option String) (store : Store) (now : Int)
    (j : Nat) (hj : j < rules.length)
    (hrej : (ruleAt rules j).points ≤
      obsCount rules store (clientKeyOf ip appId) now j)
    (i : Nat) (hi : i < rules.length)
    (hadm : obsCount rules store (clientKeyOf ip appId) now i
      < (ruleAt rules i).points) :
    (rateLimiterRun rules ip appId store now).1.status = 429 ∧
    (rateLimiterRun rules ip appId store now).2 i (clientKeyOf ip appId) =
      now :: prunedLogAt rules store (clientKeyOf ip appId) now i := by
  constructor
  · have hb := (rateLimiterRun_blocked_iff rules ip appId store now).mpr
      ⟨j, hj, hrej⟩
    rw [rateLimiterRun_eta, if_pos hb]
  · rw [rateLimiterRun_store]
    have hstep := runRulesFrom_store_inRange now (clientKeyOf ip appId)
      rules 0 initAgg store i hi
    rw [Nat.zero_add] at hstep
    rw [hstep]
    simp only [slidingWindowEval, zcard]
    have hadm' : ((zremrangebyscore (store i (clientKeyOf ip appId)) 0
        (now - (rules.getD i ⟨0, 0⟩).duration * 1000)).length : Int)
          < (rules.getD i ⟨0, 0⟩).points := hadm
    rw [if_pos hadm']
    rfl

/-- Witness for `blocked_request_still_consumes`: rule 0 "1 per 10 s" is
exhausted and rejects, rule 1 "5 per 10 s" still gets the new entry. -/
theorem blocked_request_still_consumes_witness :
    (rateLimiterRun [⟨1, 10⟩, ⟨5, 10⟩] "1.1.1.1" (some "a")
        (fun j _ => if j = 0 then [49000] else []) 50000).1.status = 429 ∧
    (rateLimiterRun [⟨1, 10⟩, ⟨5, 10⟩] "1.1.1.1" (some "a")
        (fun j _ => if j = 0 then [49000] else []) 50000).2 1
        (clientKeyOf "1.1.1.1" (some "a")) =
      50000 :: prunedLogAt [⟨1, 10⟩, ⟨5, 10⟩]
        (fun j _ => if j = 0 then [49000] else [])
        (clientKeyOf "1.1.1.1" (some "a")) 50000 1 :=
  blocked_request_still_consumes [⟨1, 10⟩, ⟨5, 10⟩] "1.1.1.1" (some "a")
    (fun j _ => if j = 0 then [49000] else []) 50000
    0 (by decide) (by decide) 1 (by decide) (by decide)

/-! ## C4: strictest-rule selection -/

/-- C4 (as stated) fails on a mixed request: rule 0 (10 per 100 s) admits
and installs `strictestReset = 100`; rule 1 (1 per 1 s) rejects with
`resetSec = 1`, which does not exceed 100, so the update is skipped.  The
blocked response is labelled with the ADMITTING rule 0 (limit "10"), not
with the rejecting rule of largest resetSec (rule 1, whose points are 1). -/
theorem strictest_rule_mixed_counterexample :
    (rateLimiterRun [⟨10, 100⟩, ⟨1, 1⟩] "9.9.9.9" (some "app")
        (fun j _ => if j = 1 then [999500] else []) 1000000).1.status = 429 ∧
    (ruleAt [⟨10, 100⟩, ⟨1, 1⟩] 1).points ≤
      obsCount [⟨10, 100⟩, ⟨1, 1⟩]
        (fun j _ => if j = 1 then [999500] else [])
        (clientKeyOf "9.9.9.9" (some "app")) 1000000 1 ∧
    obsCount [⟨10, 100⟩, ⟨1, 1⟩]
        (fun j _ => if j = 1 then [999500] else [])
        (clientKeyOf "9.9.9.9" (some "app")) 1000000 0
      < (ruleAt [⟨10, 100⟩, ⟨1, 1⟩] 0).points ∧
    (runRulesFrom 1000000 (clientKeyOf "9.9.9.9" (some "app"))
        [⟨10, 100⟩, ⟨1, 1⟩] 0 initAgg
        (fun j _ => if j = 1 then [999500] else [])).1.strictestIdx = 0 ∧
    ("X-RateLimit-Limit", "10") ∈
      (rateLimiterRun [⟨10, 100⟩, ⟨1, 1⟩] "9.9.9.9" (some "app")
        (fun j _ => if j = 1 then [999500] else []) 1000000).1.headers ∧
    ("X-RateLimit-Limit", toString (ruleAt [⟨10, 100⟩, ⟨1, 1⟩] 1).points) ∉
      (rateLimiterRun [⟨10, 100⟩, ⟨1, 1⟩] "9.9.9.9" (some "app")
        (fun j _ => if j = 1 then [999500] else []) 1000000).1.headers := by
  decide

/-- C4 (amended): `X-RateLimit-Limit` always carries the points of
`rules[strictestRuleIdx]`.  On a request every rule admits, the selected
index is the first index attaining the minimum post-admission remaining
quota (strict comparison, so the earlier index wins ties).  On a request
every rule rejects, it is the first index attaining the maximum
`resetSec`.  (On a mixed blocked request the selected index can remain
on an admitting rule, as the counterexample shows.) -/
theorem strictest_rule_selection (rules : List RateLimitRule) (ip : String)
    (appId : Option String) (store : Store) (now : Int)
    (hne : rules ≠ [])
    (hvalid : ∀ j, j < rules.length → 0 < (ruleAt rules j).points)
    (hscores : ∀ j, j < rules.length →
      ∀ s ∈ store j (clientKeyOf ip appId), (0:Int) ≤ s) :
    (("X-RateLimit-Limit", toString ((ruleAt rules
        (runRulesFrom now (clientKeyOf ip appId) rules 0
          initAgg store).1.strictestIdx).points))
      ∈ (rateLimiterRun rules ip appId store now).1.headers) ∧
    ((∀ j, j < rules.length →
        obsCount rules store (clientKeyOf ip appId) now j
          < (ruleAt rules j).points) →
      (runRulesFrom now (clientKeyOf ip appId) rules 0
          initAgg store).1.strictestIdx < rules.length ∧
      (∀ j, j < rules.length →
        obsRemaining rules store (clientKeyOf ip appId) now
            ((runRulesFrom now (clientKeyOf ip appId) rules 0
              initAgg store).1.strictestIdx)
          ≤ obsRemaining rules store (clientKeyOf ip appId) now j) ∧
      (∀ j, j < (runRulesFrom now (clientKeyOf ip appId) rules 0
          initAgg store).1.strictestIdx →
        obsRemaining rules store (clientKeyOf ip appId) now
            ((runRulesFrom now (clientKeyOf ip appId) rules 0
              initAgg store).1.strictestIdx)
          < obsRemaining rules store (clientKeyOf ip appId) now j)) ∧
    ((∀ j, j < rules.length →
        (ruleAt rules j).points ≤
          obsCount rules store (clientKeyOf ip appId) now j) →
      (runRulesFrom now (clientKeyOf ip appId) rules 0
          initAgg store).1.strictestIdx < rules.length ∧
      (∀ j, j < rules.length →
        obsReset rules store (clientKeyOf ip appId) now j
          ≤ obsReset rules store (clientKeyOf ip appId) now
              ((runRulesFrom now (clientKeyOf ip appId) rules 0
                initAgg store).1.strictestIdx)) ∧
      (∀ j, j < (runRulesFrom now (clientKeyOf ip appId) rules 0
          initAgg store).1.strictestIdx →
        obsReset rules store (clientKeyOf ip appId) now j
          < obsReset rules store (clientKeyOf ip appId) now
              ((runRulesFrom now (clientKeyOf ip appId) rules 0
                initAgg store).1.strictestIdx))) := by
  have hlen : 0 < rules.length := List.length_pos.mpr hne
  have heslen : (eventsOf now (clientKeyOf ip appId) rules 0 store).length
      = rules.length := eventsOf_length now (clientKeyOf ip appId) rules 0 store
  refine ⟨?_, ?_, ?_⟩
  · by_cases hb : (runRulesFrom now (clientKeyOf ip appId) rules 0
        initAgg store).1.blocked = true
    · rw [rateLimiterRun_eta, if_pos hb]
      exact List.mem_cons_self _ _
    · rw [rateLimiterRun_eta, if_neg hb]
      exact List.mem_cons_self _ _
  · intro hall
    have hes_adm : ∀ e ∈ eventsOf now (clientKeyOf ip appId) rules 0 store,
        e.reject = false := by
      intro e he
      obtain ⟨n, hn, hgetEl⟩ := List.mem_iff_getElem.mp he
      have hn' : n < rules.length := by omega
      rw [← hgetEl, ← List.getD_eq_getElem _ noEvent hn,
        events_getD rules store (clientKeyOf ip appId) now n hn']
      have h2 : ((zremrangebyscore (store n (clientKeyOf ip appId)) 0
          (now - (ruleAt rules n).duration * 1000)).length : Int)
            < (ruleAt rules n).points := hall n hn'
      simp only [eventOf, decide_eq_false_iff_not]
      omega
    rcases foldAgg_all_admit (eventsOf now (clientKeyOf ip appId) rules 0 store)
        0 initAgg hes_adm with ⟨_, hArem⟩ | hB
    · have := hArem 0 (by omega)
      rw [show initAgg.strictestRemaining = none from rfl, remLt_none] at this
      exact absurd this (by simp)
    · obtain ⟨m, hm, _, hidx, _, _, _, hmin, hstrict⟩ := hB
      have hm' : m < rules.length := by omega
      have hidx' : (runRulesFrom now (clientKeyOf ip appId) rules 0
          initAgg store).1.strictestIdx = m := by
        rw [runRulesFrom_agg, hidx, Nat.zero_add]
      have htrans : ∀ j, j < rules.length →
          ((eventsOf now (clientKeyOf ip appId) rules 0 store).getD j
            noEvent).remaining =
          obsRemaining rules store (clientKeyOf ip appId) now j := by
        intro j hj
        rw [events_getD rules store (clientKeyOf ip appId) now j hj,
          eventOf_remaining]
      refine ⟨?_, ?_, ?_⟩
      · rw [hidx']
        exact hm'
      · intro j hj
        rw [hidx']
        have := hmin j (by omega)
        rw [htrans j hj, htrans m hm'] at this
        exact this
      · intro j hj
        rw [hidx'] at hj ⊢
        have := hstrict j hj
        rw [htrans j (by omega), htrans m hm'] at this
        exact this
  · intro hall
    have hes_rej : ∀ e ∈ eventsOf now (clientKeyOf ip appId) rules 0 store,
        e.reject = true ∧ e.hasOldest = true := by
      intro e he
      obtain ⟨n, hn, hgetEl⟩ := List.mem_iff_getElem.mp he
      have hn' : n < rules.length := by omega
      rw [← hgetEl, ← List.getD_eq_getElem _ noEvent hn,
        events_getD rules store (clientKeyOf ip appId) now n hn']
      exact ⟨(eventOf_reject_iff rules store (clientKeyOf ip appId)
          now n).mpr (hall n hn'),
        eventOf_hasOldest rules store (clientKeyOf ip appId) now n
          (hvalid n hn') (hall n hn')⟩
    have htrans : ∀ j, j < rules.length →
        ((eventsOf now (clientKeyOf ip appId) rules 0 store).getD j
          noEvent).resetSec =
        obsReset rules store (clientKeyOf ip appId) now j := by
      intro j hj
      rw [events_getD rules store (clientKeyOf ip appId) now j hj,
        eventOf_resetSec]
    rcases foldAgg_all_reject (eventsOf now (clientKeyOf ip appId) rules 0 store)
        0 initAgg hes_rej with ⟨_, _, hAall⟩ | hB
    · have h0 := hAall 0 (by omega)
      rw [htrans 0 hlen] at h0
      have h1 := obsReset_pos rules store (clientKeyOf ip appId) now 0
        (hvalid 0 hlen) (hall 0 hlen) (hscores 0 hlen)
      rw [show initAgg.strictestReset = 0 from rfl] at h0
      omega
    · obtain ⟨m, hm, hidx, _, _, hmax, hstrict⟩ := hB
      have hm' : m < rules.length := by omega
      have hidx' : (runRulesFrom now (clientKeyOf ip appId) rules 0
          initAgg store).1.strictestIdx = m := by
        rw [runRulesFrom_agg, hidx, Nat.zero_add]
      refine ⟨?_, ?_, ?_⟩
      · rw [hidx']
        exact hm'
      · intro j hj
        rw [hidx']
        have := hmax j (by omega)
        rw [htrans j hj, htrans m hm'] at this
        exact this
      · intro j hj
        rw [hidx'] at hj ⊢
        have := hstrict j hj
        rw [htrans j (by omega), htrans m hm'] at this
        exact this

/-- Witness for `strictest_rule_selection`: rules "2 per 10 s" and
"5 per 10 s" on an empty store: both admit; the selected index is the
first minimum of the remaining quotas. -/
theorem strictest_rule_selection_witness :
    (("X-RateLimit-Limit", toString ((ruleAt [⟨2, 10⟩, ⟨5, 10⟩]
        (runRulesFrom 50000 (clientKeyOf "1.1.1.1" (some "a"))
          [⟨2, 10⟩, ⟨5, 10⟩] 0 initAgg emptyStore).1.strictestIdx).points))
      ∈ (rateLimiterRun [⟨2, 10⟩, ⟨5, 10⟩] "1.1.1.1" (some "a")
          emptyStore 50000).1.headers) ∧
    ((runRulesFrom 50000 (clientKeyOf "1.1.1.1" (some "a"))
        [⟨2, 10⟩, ⟨5, 10⟩] 0 initAgg emptyStore).1.strictestIdx < 2 ∧
      (∀ j, j < 2 →
        obsRemaining [⟨2, 10⟩, ⟨5, 10⟩] emptyStore
            (clientKeyOf "1.1.1.1" (some "a")) 50000
            ((runRulesFrom 50000 (clientKeyOf "1.1.1.1" (some "a"))
              [⟨2, 10⟩, ⟨5, 10⟩] 0 initAgg emptyStore).1.strictestIdx)
          ≤ obsRemaining [⟨2, 10⟩, ⟨5, 10⟩] emptyStore
              (clientKeyOf "1.1.1.1" (some "a")) 50000 j) ∧
      (∀ j, j < (runRulesFrom 50000 (clientKeyOf "1.1.1.1" (some "a"))
          [⟨2, 10⟩, ⟨5, 10⟩] 0 initAgg emptyStore).1.strictestIdx →
        obsRemaining [⟨2, 10⟩, ⟨5, 10⟩] emptyStore
            (clientKeyOf "1.1.1.1" (some "a")) 50000
            ((runRulesFrom 50000 (clientKeyOf "1.1.1.1" (some "a"))
              [⟨2, 10⟩, ⟨5, 10⟩] 0 initAgg emptyStore).1.strictestIdx)
          < obsRemaining [⟨2, 10⟩, ⟨5, 10⟩] emptyStore
              (clientKeyOf "1.1.1.1" (some "a")) 50000 j)) := by
  have h := strictest_rule_selection [⟨2, 10⟩, ⟨5, 10⟩] "1.1.1.1" (some "a")
    emptyStore 50000 (by decide) (by decide)
    (by intro j _ s hs; exact absurd hs (List.not_mem_nil s))
  exact ⟨h.1, h.2.1 (by decide)⟩

/-! ## C7: rule-set validation (src/utils/rateLimitHelpers.ts) -/

/-- A rule as configured, before validation: its fields are JS numbers,
modelled as rationals (the `typeof !== 'number'` guard of the source
cannot fail in the typed model, and `NaN`/`Infinity` are outside ℚ). -/
structure RateLimitRuleQ where
  points : Rat
  duration : Rat
  deriving Repr, DecidableEq

/-- The per-rule loop of `validateRateLimitRules`: throws at the first
rule whose `points` or `duration` is not positive. -/
def validateRulesLoop : List RateLimitRuleQ → Except String Unit
  | [] => Except.ok ()
  | rule :: rest =>
      if rule.points ≤ 0 ∨ rule.duration ≤ 0 then
        Except.error
          "Invalid rate limit rule: points and duration must be positive numbers."
      else validateRulesLoop rest

/-- The function `validateRateLimitRules` of src/utils/rateLimitHelpers.ts lines 21-39:
requires a non-empty array, then requires every rule's `points` and
`duration` to be positive numbers.  No integrality test appears in the
source. -/
def validateRateLimitRules (rules : List RateLimitRuleQ) : Except String Unit :=
  match rules with
  | [] => Except.error "At least one rate limit rule must be provided."
  | _ => validateRulesLoop rules

/-- Whether validation accepted the rule set. -/
def validationOk (rules : List RateLimitRuleQ) : Bool :=
  match validateRateLimitRules rules with
  | Except.ok _ => true
  | Except.error _ => false

/-- The rational 3/2, given in normal form so that kernel evaluation works
on it. -/
def threeHalves : Rat := ⟨3, 2, by decide, by decide⟩

theorem threeHalves_num_den : threeHalves.num = 3 ∧ threeHalves.den = 2 :=
  ⟨rfl, rfl⟩

/-- C7 (counterexample): the validator accepts `[{points: 3/2, duration:
10}]` although 3/2 is not integral, refuting "accepts iff ... both
integral". -/
theorem validate_integrality_counterexample :
    ¬ ((validationOk [⟨threeHalves, 10⟩] = true) ↔
        (([(⟨threeHalves, 10⟩ : RateLimitRuleQ)] ≠ []) ∧
         ∀ r ∈ [(⟨threeHalves, 10⟩ : RateLimitRuleQ)],
           0 < r.points ∧ 0 < r.duration ∧
           r.points.den = 1 ∧ r.duration.den = 1)) := by
  intro h
  have hok : validationOk [⟨threeHalves, 10⟩] = true := by decide
  have hden : ((⟨threeHalves, 10⟩ : RateLimitRuleQ).points).den = 2 := by decide
  have := (h.mp hok).2 ⟨threeHalves, 10⟩ (List.mem_cons_self _ _)
  rw [hden] at this
  exact absurd this.2.2.1 (by decide)

/-- C7 (amended): validation accepts a rule set iff the array is non-empty
and every element has `points > 0` and `duration > 0`; integrality is NOT
checked.  On any violation the validator throws, returning only an error
message and no rule set. -/
theorem validate_iff (rules : List RateLimitRuleQ) :
    validationOk rules = true ↔
      rules ≠ [] ∧ ∀ r ∈ rules, 0 < r.points ∧ 0 < r.duration := by
  have hloop : ∀ (l : List RateLimitRuleQ),
      (match validateRulesLoop l with
        | Except.ok _ => true
        | Except.error _ => false) = true ↔
      ∀ r ∈ l, 0 < r.points ∧ 0 < r.duration := by
    intro l
    induction l with
    | nil => simp [validateRulesLoop]
    | cons a l ih =>
        by_cases ha : a.points ≤ 0 ∨ a.duration ≤ 0
        · simp only [validateRulesLoop, if_pos ha]
          constructor
          · intro h
            exact absurd h (by simp)
          · intro h
            have := h a (List.mem_cons_self a l)
            rcases ha with ha | ha
            · exact absurd this.1 (not_lt.mpr ha)
            · exact absurd this.2 (not_lt.mpr ha)
        · simp only [validateRulesLoop, if_neg ha, ih]
          push_neg at ha
          constructor
          · intro h r hr
            rcases List.mem_cons.mp hr with h0 | h0
            · exact h0 ▸ ⟨ha.1, ha.2⟩
            · exact h r h0
          · intro h r hr
            exact h r (List.mem_cons_of_mem a hr)
  cases rules with
  | nil => simp [validationOk, validateRateLimitRules]
  | cons a l =>
      rw [show validationOk (a :: l) =
          (match validateRulesLoop (a :: l) with
            | Except.ok _ => true
            | Except.error _ => false) from rfl]
      rw [hloop (a :: l)]
      simp

/-! ## C8 and C9: identifier normalization and case folding -/

/-- C9 (counterexample): the sliding-window middleware (part_005) uses
`??`, which does not replace the EMPTY identifier: the client key becomes
`"1.2.3.4:"`, not `"1.2.3.4:unknown"`. -/
theorem empty_identifier_counterexample :
    normalizeIdSwl (some "") = "" ∧
    normalizeIdSwl (some "") ≠ "unknown" ∧
    clientKeyOf "1.2.3.4" (some "") = "1.2.3.4:" ∧
    clientKeyOf "1.2.3.4" (some "") ≠ "1.2.3.4:unknown" := by decide

/-- C9 (amended): an ABSENT identifier is normalized to `"unknown"` by
both middleware generations; the empty string is normalized only by the
`||` variant of src/middlewares/rateLimiter.ts, while the sliding-window
middleware (part_005, `??`) keeps it verbatim. -/
theorem identifier_normalization (p : Option String) :
    (normalizeIdSwl none = "unknown" ∧ normalizeIdFlex none = "unknown" ∧
      normalizeIdFlex (some "") = "unknown") ∧
    (normalizeIdSwl p = "unknown" ↔ p = none ∨ p = some "unknown") ∧
    (normalizeIdFlex p = "unknown" ↔
      p = none ∨ p = some "" ∨ p = some "unknown") := by
  refine ⟨⟨rfl, rfl, rfl⟩, ?_, ?_⟩
  · cases p with
    | none => simp [normalizeIdSwl]
    | some s =>
        simp only [normalizeIdSwl]
        constructor
        · intro h
          exact Or.inr (congrArg some h)
        · rintro (h | h)
          · exact absurd h (by simp)
          · exact Option.some.inj h
  · cases p with
    | none => simp [normalizeIdFlex]
    | some s =>
        simp only [normalizeIdFlex]
        by_cases hs : s = ""
        · subst hs
          simp
        · rw [if_neg hs]
          constructor
          · intro h
            exact Or.inr (Or.inr (congrArg some h))
          · rintro (h | h | h)
            · exact absurd h (by simp)
            · exact absurd (Option.some.inj h) hs
            · exact Option.some.inj h

/-- C8 (counterexample): the window logs are NOT shared between `"AppX"`
and `"appx"`: the client keys differ, and after `"AppX"` exhausts a
1-point rule, a request as `"appx"` from the same address is still
admitted - while a repeat of `"appx"` itself is blocked. -/
theorem case_folding_counterexample :
    clientKeyOf "1.2.3.4" (some "AppX") ≠ clientKeyOf "1.2.3.4" (some "appx") ∧
    ((rateLimiterRun [⟨1, 60⟩] "1.2.3.4" (some "appx")
        (rateLimiterRun [⟨1, 60⟩] "1.2.3.4" (some "AppX")
          emptyStore 50000).2 50000).1.nextCalled = true) ∧
    ((rateLimiterRun [⟨1, 60⟩] "1.2.3.4" (some "appx")
        (rateLimiterRun [⟨1, 60⟩] "1.2.3.4" (some "appx")
          emptyStore 50000).2 50000).1.status = 429) := by decide

/-- C8 (amended): case folding applies to the CONFIG key, not to the
window partition: identifiers equal up to case share one
`rateLimitConfig:` key (the seeder lowercases), but the middleware's
ClientKey embeds the identifier verbatim, so identifiers differing in
case use disjoint window logs. -/
theorem case_folding_config_only (a b : String)
    (hfold : a.data.map Char.toLower = b.data.map Char.toLower)
    (hne : a ≠ b) :
    seedConfigKey a = seedConfigKey b ∧
    ∀ ip : String, clientKeyOf ip (some a) ≠ clientKeyOf ip (some b) := by
  constructor
  · simp only [seedConfigKey]
    rw [hfold]
  · intro ip hck
    simp only [clientKeyOf, normalizeIdSwl] at hck
    have hdata := congrArg String.data hck
    simp only [String.data_append, List.append_assoc] at hdata
    exact hne (String.ext (List.append_cancel_left
      (List.append_cancel_left hdata)))

/-- Witness for `case_folding_config_only` at `"AppX"` / `"appx"`. -/
theorem case_folding_config_only_witness :
    seedConfigKey "AppX" = seedConfigKey "appx" ∧
    clientKeyOf "1.2.3.4" (some "AppX") ≠ clientKeyOf "1.2.3.4" (some "appx") := by
  have h := case_folding_config_only "AppX" "appx" (by decide) (by decide)
  exact ⟨h.1, h.2 "1.2.3.4"⟩

/-! ## C6: store-error handling -/

/-- Rule indices at or beyond the end of the processed list are never
written by the rule loop. -/
theorem runRulesFrom_store_above (now : Int) (ck : String) :
    ∀ (rules : List RateLimitRule) (i : Nat) (agg : Agg) (store : Store)
      (j : Nat) (k : String), i + rules.length ≤ j →
      (runRulesFrom now ck rules i agg store).2 j k = store j k := by
  intro rules
  induction rules with
  | nil => intro i agg store j k _; rfl
  | cons rule rest ih =>
      intro i agg store j k hj
      simp only [runRulesFrom]
      rw [ih (i + 1) _ _ j k (by simp at hj; omega)]
      rw [if_neg (fun hc => absurd hc.1 (by simp at hj; omega))]

/-- Modelled from the spec: the middleware generation that resolves its
rule set from the store and maps store errors (the no-argument
`rateLimiter` the test suite mounts) is not among the sources; only its
tests and the Lua script it evaluates are.  Its store-error path follows
the spec: "On `StoreError` → status 503 with body `"Service Unavailable:
Rate limiter backend error."`, `Retry-After: 10`, no rate-limit headers,
no downstream invocation; abort the loop."  `failAt = some k` makes the
store raise on the accountant call for rule `k` (the failing call leaves
its key unchanged: the atomic script is the unit of commit); `none` is an
error-free request, behaving as `rateLimiterRun`. -/
def rateLimiterRunE (rules : List RateLimitRule) (ip : String)
    (appId : Option String) (store : Store) (now : Int)
    (failAt : Option Nat) : Response × Store :=
  match failAt with
  | some k =>
      if k < rules.length then
        ({ status := 503,
           body := "Service Unavailable: Rate limiter backend error.",
           headers := [("Retry-After", "10")], nextCalled := false },
         (runRulesFrom now (clientKeyOf ip appId) (rules.take k) 0
           initAgg store).2)
      else rateLimiterRun rules ip appId store now
  | none => rateLimiterRun rules ip appId store now

/-- C6: when the store raises an error while evaluating rule `k`, the
middleware responds 503 with body "Service Unavailable: Rate limiter
backend error.", sets only `Retry-After: 10` (none of the four rate-limit
headers), does not invoke the continuation, and evaluates no further
rules: every key of rule index `≥ k` is left exactly as the request found
it. -/
theorem store_error_response (rules : List RateLimitRule) (ip : String)
    (appId : Option String) (store : Store) (now : Int)
    (k : Nat) (hk : k < rules.length) :
    (rateLimiterRunE rules ip appId store now (some k)).1.status = 503 ∧
    (rateLimiterRunE rules ip appId store now (some k)).1.body =
      "Service Unavailable: Rate limiter backend error." ∧
    (rateLimiterRunE rules ip appId store now (some k)).1.headers =
      [("Retry-After", "10")] ∧
    (∀ name v, (name, v) ∈
        (rateLimiterRunE rules ip appId store now (some k)).1.headers →
      name = "Retry-After") ∧
    (rateLimiterRunE rules ip appId store now (some k)).1.nextCalled = false ∧
    (∀ j, k ≤ j → ∀ ck2,
      (rateLimiterRunE rules ip appId store now (some k)).2 j ck2 =
        store j ck2) := by
  have hunfold : rateLimiterRunE rules ip appId store now (some k) =
      ({ status := 503,
         body := "Service Unavailable: Rate limiter backend error.",
         headers := [("Retry-After", "10")], nextCalled := false },
       (runRulesFrom now (clientKeyOf ip appId) (rules.take k) 0
         initAgg store).2) := by
    simp only [rateLimiterRunE]
    rw [if_pos hk]
  rw [hunfold]
  refine ⟨rfl, rfl, rfl, ?_, rfl, ?_⟩
  · intro name v hmem
    rcases List.mem_cons.mp hmem with h | h
    · exact congrArg Prod.fst h
    · exact absurd h (List.not_mem_nil _)
  · intro j hj ck2
    by_cases hc : ck2 = clientKeyOf ip appId
    · subst hc
      refine runRulesFrom_store_above now _ (rules.take k) 0 initAgg store j _ ?_
      have : (rules.take k).length ≤ k := by
        simp [List.length_take]
      omega
    · exact runRulesFrom_store_other now _ (rules.take k) 0 initAgg store j _
        (Or.inl hc)

/-- Witness for `store_error_response`: a store error on the first rule's
evaluation yields the 503 response and an untouched store. -/
theorem store_error_response_witness :
    (rateLimiterRunE [⟨1, 10⟩] "1.1.1.1" (some "a") emptyStore 50000
        (some 0)).1.status = 503 ∧
    (rateLimiterRunE [⟨1, 10⟩] "1.1.1.1" (some "a") emptyStore 50000
        (some 0)).1.nextCalled = false ∧
    (rateLimiterRunE [⟨1, 10⟩] "1.1.1.1" (some "a") emptyStore 50000
        (some 0)).2 0 (clientKeyOf "1.1.1.1" (some "a")) =
      emptyStore 0 (clientKeyOf "1.1.1.1" (some "a")) := by
  have h := store_error_response [⟨1, 10⟩] "1.1.1.1" (some "a") emptyStore
    50000 0 (by decide)
  exact ⟨h.1, h.2.2.2.2.1, h.2.2.2.2.2 0 (le_refl 0) _⟩

/-! ## C1: atomicity of the accountant

The store executes one command at a time; concurrency is modelled by a
schedule interleaving the store commands of two callers that share one
`(ruleIndex, clientKey)` window log.  A session is a small state machine
whose `pc` counts the commands it has already issued. -/

/-- One in-flight accountant call: `pc` counts completed store commands,
`count` holds the count the caller has read so far. -/
structure Session where
  pc : Nat
  count : Nat
  deriving Repr, DecidableEq

/-- A session that has not issued any command yet. -/
def initSession : Session := ⟨0, 0⟩

/-- Modelled from the spec: the Window Accountant of the middleware
generation exercised by the test suite pushes steps 3-6 into ONE store
command - `evaluateScript(rateLimitLuaScript, [key], [now, windowStart,
points, expireSec])`.  (That caller is not among the sources; only the
script itself, part_008, is, and its body is embedded as
`slidingWindowEval`.)  The whole evaluation is therefore a single
transition of the store. -/
def scriptStep (rule : RateLimitRule) (now : Int) (log : WindowLog)
    (s : Session) : WindowLog × Session :=
  if s.pc = 0 then
    ((slidingWindowEval rule now log).log,
     ⟨1, (slidingWindowEval rule now log).count⟩)
  else (log, s)

/-- Interleave two concurrent scripted accountant calls (call times
`nowA`, `nowB`, same key) under a schedule: `true` steps caller A,
`false` steps caller B.  A finished caller ignores further steps. -/
def runSched (rule : RateLimitRule) (nowA nowB : Int) :
    List Bool → WindowLog → Session → Session →
      WindowLog × Session × Session
  | [], log, a, b => (log, a, b)
  | c :: cs, log, a, b =>
      if c then
        runSched rule nowA nowB cs (scriptStep rule nowA log a).1
          (scriptStep rule nowA log a).2 b
      else
        runSched rule nowA nowB cs (scriptStep rule nowB log b).1 a
          (scriptStep rule nowB log b).2

theorem runSched_done_left (rule : RateLimitRule) (nowA nowB : Int) :
    ∀ (cs : List Bool) (log : WindowLog) (a : Session), a.pc ≠ 0 →
      false ∈ cs →
      runSched rule nowA nowB cs log a initSession =
        ((slidingWindowEval rule nowB log).log, a,
         ⟨1, (slidingWindowEval rule nowB log).count⟩) := by
  intro cs
  induction cs with
  | nil => intro log a _ hmem; exact absurd hmem (List.not_mem_nil false)
  | cons c cs ih =>
      intro log a ha hmem
      cases c with
      | true =>
          have hmem' : false ∈ cs := by
            rcases List.mem_cons.mp hmem with h | h
            · exact absurd h.symm (by simp)
            · exact h
          simp only [runSched, if_true]
          rw [show scriptStep rule nowA log a = (log, a) from by
            simp only [scriptStep]
            rw [if_neg ha]]
          exact ih log a ha hmem'
      | false =>
          simp only [runSched, Bool.false_eq_true, if_false]
          rw [show scriptStep rule nowB log initSession =
              ((slidingWindowEval rule nowB log).log,
               ⟨1, (slidingWindowEval rule nowB log).count⟩) from rfl]
          have hdone : ∀ (cs2 : List Bool) (log2 : WindowLog) (a2 b2 : Session),
              a2.pc ≠ 0 → b2.pc ≠ 0 →
              runSched rule nowA nowB cs2 log2 a2 b2 = (log2, a2, b2) := by
            intro cs2
            induction cs2 with
            | nil => intro log2 a2 b2 _ _; rfl
            | cons c2 cs2 ih2 =>
                intro log2 a2 b2 ha2 hb2
                cases c2 with
                | true =>
                    simp only [runSched, if_true]
                    rw [show scriptStep rule nowA log2 a2 = (log2, a2) from by
                      simp only [scriptStep]
                      rw [if_neg ha2]]
                    exact ih2 log2 a2 b2 ha2 hb2
                | false =>
                    simp only [runSched, Bool.false_eq_true, if_false]
                    rw [show scriptStep rule nowB log2 b2 = (log2, b2) from by
                      simp only [scriptStep]
                      rw [if_neg hb2]]
                    exact ih2 log2 a2 b2 ha2 hb2
          exact hdone cs _ a ⟨1, (slidingWindowEval rule nowB log).count⟩ ha
            (by simp)

theorem runSched_done_right (rule : RateLimitRule) (nowA nowB : Int) :
    ∀ (cs : List Bool) (log : WindowLog) (b : Session), b.pc ≠ 0 →
      true ∈ cs →
      runSched rule nowA nowB cs log initSession b =
        ((slidingWindowEval rule nowA log).log,
         ⟨1, (slidingWindowEval rule nowA log).count⟩, b) := by
  intro cs
  induction cs with
  | nil => intro log b _ hmem; exact absurd hmem (List.not_mem_nil true)
  | cons c cs ih =>
      intro log b hb hmem
      cases c with
      | false =>
          have hmem' : true ∈ cs := by
            rcases List.mem_cons.mp hmem with h | h
            · exact absurd h.symm (by simp)
            · exact h
          simp only [runSched, Bool.false_eq_true, if_false]
          rw [show scriptStep rule nowB log b = (log, b) from by
            simp only [scriptStep]
            rw [if_neg hb]]
          exact ih log b hb hmem'
      | true =>
          simp only [runSched, if_true]
          rw [show scriptStep rule nowA log initSession =
              ((slidingWindowEval rule nowA log).log,
               ⟨1, (slidingWindowEval rule nowA log).count⟩) from rfl]
          have hdone : ∀ (cs2 : List Bool) (log2 : WindowLog) (a2 b2 : Session),
              a2.pc ≠ 0 → b2.pc ≠ 0 →
              runSched rule nowA nowB cs2 log2 a2 b2 = (log2, a2, b2) := by
            intro cs2
            induction cs2 with
            | nil => intro log2 a2 b2 _ _; rfl
            | cons c2 cs2 ih2 =>
                intro log2 a2 b2 ha2 hb2
                cases c2 with
                | true =>
                    simp only [runSched, if_true]
                    rw [show scriptStep rule nowA log2 a2 = (log2, a2) from by
                      simp only [scriptStep]
                      rw [if_neg ha2]]
                    exact ih2 log2 a2 b2 ha2 hb2
                | false =>
                    simp only [runSched, Bool.false_eq_true, if_false]
                    rw [show scriptStep rule nowB log2 b2 = (log2, b2) from by
                      simp only [scriptStep]
                      rw [if_neg hb2]]
                    exact ih2 log2 a2 b2 ha2 hb2
          exact hdone cs _ ⟨1, (slidingWindowEval rule nowA log).count⟩ b
            (by simp) hb

/-- C1: the scripted accountant is atomic.  Under EVERY schedule in which
two concurrent callers on the same `(ruleIndex, clientKey)` both run,
the interleaved execution equals the serial execution of the two
`slidingWindowEval` calls in schedule order: prune, count, conditional
insert and expiry act as one unit, and no interleaving can observe or
produce an intermediate state. -/
theorem script_serializes (rule : RateLimitRule) (nowA nowB : Int)
    (log : WindowLog) :
    ∀ (sched : List Bool), true ∈ sched → false ∈ sched →
      runSched rule nowA nowB sched log initSession initSession =
        (if sched.headD true then
          ((slidingWindowEval rule nowB
              (slidingWindowEval rule nowA log).log).log,
           ⟨1, (slidingWindowEval rule nowA log).count⟩,
           ⟨1, (slidingWindowEval rule nowB
              (slidingWindowEval rule nowA log).log).count⟩)
         else
          ((slidingWindowEval rule nowA
              (slidingWindowEval rule nowB log).log).log,
           ⟨1, (slidingWindowEval rule nowA
              (slidingWindowEval rule nowB log).log).count⟩,
           ⟨1, (slidingWindowEval rule nowB log).count⟩)) := by
  intro sched htrue hfalse
  cases sched with
  | nil => exact absurd htrue (List.not_mem_nil true)
  | cons c cs =>
      cases c with
      | true =>
          have hfalse' : false ∈ cs := by
            rcases List.mem_cons.mp hfalse with h | h
            · exact absurd h.symm (by simp)
            · exact h
          simp only [List.headD_cons, if_true]
          simp only [runSched, if_true]
          rw [show scriptStep rule nowA log initSession =
              ((slidingWindowEval rule nowA log).log,
               ⟨1, (slidingWindowEval rule nowA log).count⟩) from rfl]
          exact runSched_done_left rule nowA nowB cs
            (slidingWindowEval rule nowA log).log
            ⟨1, (slidingWindowEval rule nowA log).count⟩ (by simp) hfalse'
      | false =>
          have htrue' : true ∈ cs := by
            rcases List.mem_cons.mp htrue with h | h
            · exact absurd h.symm (by simp)
            · exact h
          simp only [List.headD_cons, Bool.false_eq_true, if_false]
          simp only [runSched, Bool.false_eq_true, if_false]
          rw [show scriptStep rule nowB log initSession =
              ((slidingWindowEval rule nowB log).log,
               ⟨1, (slidingWindowEval rule nowB log).count⟩) from rfl]
          exact runSched_done_right rule nowA nowB cs
            (slidingWindowEval rule nowB log).log
            ⟨1, (slidingWindowEval rule nowB log).count⟩ (by simp) htrue'

/-- Witness for `script_serializes`: the schedule B-then-A on a 1-point
rule serializes, and only one of the two concurrent calls is admitted. -/
theorem script_serializes_witness :
    runSched ⟨1, 10⟩ 50000 50000 [false, true] [] initSession initSession =
      ((slidingWindowEval ⟨1, 10⟩ 50000
          (slidingWindowEval ⟨1, 10⟩ 50000 []).log).log,
       ⟨1, (slidingWindowEval ⟨1, 10⟩ 50000
          (slidingWindowEval ⟨1, 10⟩ 50000 []).log).count⟩,
       ⟨1, (slidingWindowEval ⟨1, 10⟩ 50000 []).count⟩) := by
  have h := script_serializes ⟨1, 10⟩ 50000 50000 [] [false, true]
    (by decide) (by decide)
  simpa using h

/-- The contrast motivating the atomicity requirement: part_005 issues the
prune, the count and the conditional insert as three separate store
commands.  Interleaving two such callers on a 1-point rule lets both read
count 0 and both insert: the window ends with 2 entries, exceeding
`points = 1` - which the serialized script (`script_serializes` plus
`sliding_window_invariants`) can never produce. -/
def pipeStep (rule : RateLimitRule) (now : Int) (log : WindowLog)
    (s : Session) : WindowLog × Session :=
  match s.pc with
  | 0 => (zremrangebyscore log 0 (now - rule.duration * 1000), ⟨1, 0⟩)
  | 1 => (log, ⟨2, log.length⟩)
  | 2 =>
      if (s.count : Int) < rule.points then (now :: log, ⟨3, s.count⟩)
      else (log, ⟨3, s.count⟩)
  | _ => (log, s)

/-- Interleave two concurrent pipeline callers under a schedule. -/
def runSchedPipe (rule : RateLimitRule) (nowA nowB : Int) :
    List Bool → WindowLog → Session → Session →
      WindowLog × Session × Session
  | [], log, a, b => (log, a, b)
  | c :: cs, log, a, b =>
      if c then
        runSchedPipe rule nowA nowB cs (pipeStep rule nowA log a).1
          (pipeStep rule nowA log a).2 b
      else
        runSchedPipe rule nowA nowB cs (pipeStep rule nowB log b).1 a
          (pipeStep rule nowB log b).2

/-- Two pipeline callers racing on an empty log under a 1-point rule both
read count 0, both admit, and leave 2 entries in the window. -/
theorem pipeline_exceeds_points :
    (runSchedPipe ⟨1, 10⟩ 50000 50000 [true, false, true, false, true, false]
        [] initSession initSession) =
      ([50000, 50000], ⟨3, 0⟩, ⟨3, 0⟩) ∧
    (((runSchedPipe ⟨1, 10⟩ 50000 50000
        [true, false, true, false, true, false]
        [] initSession initSession).1.length : Int) > 1) := by decide

end RateLimiter
